import Mathlib

/-!
# Janus project scaffolder: a verification development

A shallow embedding of `main.go` (the Janus CLI): the project-name sanitizer,
the recursive directory copier, the dependency installer, the git initializer
and `scaffoldProject`, over an explicit model of the file system and of the
subprocesses the program starts.

Modelling choices:

* Go strings are sequences of Unicode code points (valid UTF-8); the Unicode
  case table of `strings.ToLower` is a parameter.
* The disk holds regular files and directories, each with its permission
  bits; symbolic links, owners and access checks are not modelled. Failures
  the disk does not explain (permission denied, disk full, I/O errors) are
  injected per system call; `os.Stat` fails only on a missing path.
* The process umask is part of the world: `os.Mkdir` and `os.Create` apply it,
  `os.Chmod` does not.
* A subprocess is an arbitrary function of its command line and of the disk.
* `copyDir` carries a bound on the depth of its recursion.
-/

namespace Janus

/-! ## Project-name sanitizer -/

/-- Membership in the character class of the regular expression
`[<>:"/\\|?*]` of `sanitizeProjectName`, given by code point:
`<` 60, `>` 62, `:` 58, `"` 34, `/` 47, `\` 92, `|` 124, `?` 63, `*` 42. -/
def isInvalidChar (c : Char) : Bool :=
  c.toNat == 60 || c.toNat == 62 || c.toNat == 58 || c.toNat == 34 || c.toNat == 47 ||
  c.toNat == 92 || c.toNat == 124 || c.toNat == 63 || c.toNat == 42

/-- The Go function `unicode.ToLower`: the ASCII range is handled inline
(`A`..`Z` are shifted by 32), every other code point is looked up in the
Unicode case table, which is not part of the program and is a parameter. -/
def unicodeToLower (caseTable : Char → Char) (r : Char) : Char :=
  if r.toNat ≤ 127 then
    (if 65 ≤ r.toNat ∧ r.toNat ≤ 90 then Char.ofNat (r.toNat + 32) else r)
  else caseTable r

/-- The cutset `"-."` of `strings.Trim`: hyphen (45) and dot (46). -/
def isTrimChar (c : Char) : Bool :=
  c.toNat == 45 || c.toNat == 46

/-- The Go call `strings.Trim(s, "-.")`: leading, then trailing, cutset characters are
dropped. -/
def trimHyphenDot (s : List Char) : List Char :=
  (s.dropWhile isTrimChar).rdropWhile isTrimChar

/-- The Go call `strings.ReplaceAll(s, " ", "-")` on one character. -/
def spaceToHyphen (c : Char) : Char :=
  if c.toNat = 32 then Char.ofNat 45 else c

/-- The four rewriting steps of `sanitizeProjectName` before the emptiness
test: strip the invalid characters, turn spaces into hyphens, lowercase, trim
hyphens and dots at both ends. -/
def sanitizeChars (caseTable : Char → Char) (name : List Char) : List Char :=
  trimHyphenDot
    (((name.filter (fun c => !isInvalidChar c)).map spaceToHyphen).map
      (unicodeToLower caseTable))

/-- The function `sanitizeProjectName` of `main.go`. -/
def sanitizeProjectName (caseTable : Char → Char) (name : String) : String :=
  let sanitized := sanitizeChars caseTable name.data
  if sanitized = [] then "my-project" else String.mk sanitized

/-- What the Unicode case table is assumed to satisfy: a code point outside
ASCII is never lowered onto one of the stripped characters or onto a space,
and lowering its image again changes nothing. -/
def CaseTableOK (caseTable : Char → Char) : Prop :=
  ∀ c : Char, 128 ≤ c.toNat →
    isInvalidChar (caseTable c) = false ∧ (caseTable c).toNat ≠ 32 ∧
      unicodeToLower caseTable (caseTable c) = caseTable c

/-- A character that survives the first two steps of the sanitizer: neither
stripped nor a space. -/
def GoodChar (c : Char) : Prop := isInvalidChar c = false ∧ c.toNat ≠ 32

/-! ## The file system and the process environment

Paths are lists of components (the cleaned form `filepath.Clean` returns). The
disk is an association list from paths to nodes in which the first binding of a
path is the live one. Every system call is recorded in the trace of the world,
with its result. -/

/-- A cleaned path, as the list of its components. -/
abbrev Path := List String

/-- A file-system object with its permission bits: a regular file and its
bytes, or a directory. -/
inductive Node where
  | file (mode : Nat) (data : List Nat)
  | dir (mode : Nat)
  deriving DecidableEq, Repr

/-- The method `FileInfo.IsDir`. -/
def Node.isDir : Node → Bool
  | .file _ _ => false
  | .dir _ => true

/-- The permission bits of `FileInfo.Mode`. -/
def Node.mode : Node → Nat
  | .file m _ => m
  | .dir m => m

/-- Go `error` values the model tells apart. -/
inductive Err where
  /-- ENOENT -/
  | notExist
  /-- ENOTDIR -/
  | notDir
  /-- EISDIR -/
  | isDir
  /-- EEXIST -/
  | exist
  /-- The error of `fmt.Errorf("source is not a directory")`. -/
  | sourceNotDir
  /-- Any other errno of a system call (EACCES, ENOSPC, EIO, ...). -/
  | errno (code : Nat)
  /-- A subprocess that could not be started or ended with a failure. -/
  | exitStatus (code : Nat)
  deriving DecidableEq, Repr

/-- The system calls of the program. -/
inductive Op where
  | stat (p : Path)
  | mkdir (p : Path)
  | readDir (p : Path)
  | openFile (p : Path)
  | create (p : Path)
  | read (p : Path)
  | write (p : Path)
  | chmod (p : Path)
  deriving DecidableEq, Repr

/-- What the program does that is visible from outside. -/
inductive Event where
  /-- A system call and its result (`none` is success). -/
  | sys (op : Op) (result : Option Err)
  /-- A subprocess started by `runCommand`: working directory, name, arguments, result. -/
  | exec (dir : Path) (name : String) (args : List String) (result : Option Err)
  /-- Text written to standard output. -/
  | print (text : String)
  deriving DecidableEq, Repr

/-- The state outside the program. `faults` lists the system calls that fail
for a reason the disk does not show (permission denied, disk full, I/O error),
with the errno they fail with; `stat` is never made to fail that way. -/
structure World where
  disk : List (Path × Node)
  umask : Nat
  faults : List (Op × Nat)
  home : Option Path
  cwd : Path
  gitOnPath : Bool
  trace : List Event
  deriving DecidableEq, Repr

/-- The live binding of a path in an association list of nodes. -/
def lookupDisk (p : Path) : List (Path × Node) → Option Node
  | [] => none
  | kv :: rest => if kv.1 = p then some kv.2 else lookupDisk p rest

/-- The node a path names, if any. -/
def World.lookup (w : World) (p : Path) : Option Node := lookupDisk p w.disk

/-- Record an event. -/
def World.log (w : World) (ev : Event) : World :=
  { w with trace := w.trace ++ [ev] }

/-- The Go calls `fmt.Println` and `fmt.Printf`, the text already formatted. -/
def World.print (w : World) (text : String) : World :=
  w.log (.print text)

/-- Bind a path to a node. -/
def World.put (w : World) (p : Path) (n : Node) : World :=
  { w with disk := (p, n) :: w.disk }

/-- The injected failure of a system call, if any. -/
def World.fault (w : World) (op : Op) : Option Err :=
  match w.faults.find? (fun f => f.1 = op) with
  | some f => some (.errno f.2)
  | none => none

/-- A mode as the kernel stores it for a new object: the bits of the umask cleared. -/
def applyUmask (umask perm : Nat) : Nat := perm ^^^ (perm &&& umask)

/-- A disk where every object but the root lies in a directory. -/
def WellFormed (w : World) : Prop :=
  ∀ (p : Path) (x : String), w.lookup (p ++ [x]) ≠ none → ∃ m, w.lookup p = some (.dir m)

/-- Executable test of `WellFormed`. -/
def wellFormedCheck (w : World) : Bool :=
  w.disk.all (fun kv =>
    match kv.1 with
    | [] => true
    | _ :: _ =>
      match w.lookup kv.1.dropLast with
      | some (.dir _) => true
      | _ => false)

deriving instance DecidableEq for Except

/-- The Go call `os.Stat`. -/
def stat (w : World) (p : Path) : Except Err Node × World :=
  match w.lookup p with
  | none => (.error .notExist, w.log (.sys (.stat p) (some .notExist)))
  | some n => (.ok n, w.log (.sys (.stat p) none))

/-- The Go call `os.Mkdir`: the new directory gets `perm` less the umask. -/
def mkdir (w : World) (p : Path) (perm : Nat) : Option Err × World :=
  let r : Option Err × World :=
    match w.fault (.mkdir p) with
    | some e => (some e, w)
    | none =>
      match w.lookup p with
      | some _ => (some .exist, w)
      | none =>
        match w.lookup p.dropLast with
        | some (.dir _) => (none, w.put p (.dir (applyUmask w.umask perm)))
        | some (.file _ _) => (some .notDir, w)
        | none => (some .notExist, w)
  (r.1, r.2.log (.sys (.mkdir p) r.1))

/-- The end of `os.MkdirAll`: `Mkdir`, and when it fails a last look at the
path, which is accepted if it is a directory after all. -/
def mkdirOrExisting (w : World) (p : Path) (perm : Nat) : Option Err × World :=
  match mkdir w p perm with
  | (none, w1) => (none, w1)
  | (some e, w1) =>
    match stat w1 p with
    | (.ok (.dir _), w2) => (none, w2)
    | (_, w2) => (some e, w2)

/-- The recursion of `os.MkdirAll` on the reversed path: a path that exists
ends it at once (with an error if it is not a directory); otherwise the parent
is made first, then the path itself. -/
def mkdirAllAux (perm : Nat) : List String → World → Option Err × World
  | [], w =>
    match stat w [] with
    | (.ok (.dir _), w1) => (none, w1)
    | (.ok (.file _ _), w1) => (some .notDir, w1)
    | (.error _, w1) => mkdirOrExisting w1 [] perm
  | x :: rp, w =>
    match stat w (x :: rp).reverse with
    | (.ok (.dir _), w1) => (none, w1)
    | (.ok (.file _ _), w1) => (some .notDir, w1)
    | (.error _, w1) =>
      match mkdirAllAux perm rp w1 with
      | (some e, w2) => (some e, w2)
      | (none, w2) => mkdirOrExisting w2 (x :: rp).reverse perm

/-- The Go call `os.MkdirAll`. -/
def mkdirAll (w : World) (p : Path) (perm : Nat) : Option Err × World :=
  mkdirAllAux perm p.reverse w

/-- The name under which `k` is an entry of the directory `p`, if it is one. -/
def childName (p k : Path) : Option String :=
  if k.dropLast = p then k.getLast? else none

/-- The names of the entries of the directory `p`, in the order of the disk. -/
def entryNames (w : World) (p : Path) : List String :=
  (w.disk.filterMap (fun kv => childName p kv.1)).dedup

/-- Lexicographic order on sequences of code points. -/
def lexLe : List Nat → List Nat → Bool
  | [], _ => true
  | _ :: _, [] => false
  | a :: as, b :: bs => a < b || (a == b && lexLe as bs)

/-- The order of file names by which `os.ReadDir` sorts. -/
def nameLe (a b : String) : Bool :=
  lexLe (a.data.map Char.toNat) (b.data.map Char.toNat)

/-- The names of the entries of the directory `p`, sorted by file name. -/
def childNames (w : World) (p : Path) : List String :=
  (entryNames w p).insertionSort (fun a b => nameLe a b = true)

/-- A directory entry as `os.ReadDir` returns it. -/
structure DirEntry where
  name : String
  isDir : Bool
  deriving DecidableEq, Repr

/-- The entry of `p` called `x`. -/
def dirEntry (w : World) (p : Path) (x : String) : DirEntry :=
  { name := x
    isDir := match w.lookup (p ++ [x]) with
      | some n => n.isDir
      | none => false }

/-- The Go call `os.ReadDir`: the entries of the directory, sorted by file name. -/
def readDir (w : World) (p : Path) : Except Err (List DirEntry) × World :=
  let r : Except Err (List DirEntry) :=
    match w.fault (.readDir p) with
    | some e => .error e
    | none =>
      match w.lookup p with
      | none => .error .notExist
      | some (.file _ _) => .error .notDir
      | some (.dir _) => .ok ((childNames w p).map (dirEntry w p))
  (r, w.log (.sys (.readDir p) (match r with | .error e => some e | .ok _ => none)))

/-- The Go call `os.Open`. -/
def openFile (w : World) (p : Path) : Option Err × World :=
  let r : Option Err :=
    match w.fault (.openFile p) with
    | some e => some e
    | none =>
      match w.lookup p with
      | none => some .notExist
      | some _ => none
  (r, w.log (.sys (.openFile p) r))

/-- The Go call `os.Create`: an existing file is truncated and keeps its
mode, a new one gets mode 0666 less the umask. -/
def create (w : World) (p : Path) : Option Err × World :=
  let r : Option Err × World :=
    match w.fault (.create p) with
    | some e => (some e, w)
    | none =>
      match w.lookup p with
      | some (.dir _) => (some .isDir, w)
      | some (.file m _) => (none, w.put p (.file m []))
      | none =>
        match w.lookup p.dropLast with
        | some (.dir _) => (none, w.put p (.file (applyUmask w.umask 0o666) []))
        | some (.file _ _) => (some .notDir, w)
        | none => (some .notExist, w)
  (r.1, r.2.log (.sys (.create p) r.1))

/-- The Go call `io.Copy(out, in)` on the files opened at `dst` and `src`:
the bytes of `src` are read, then written to `dst`. -/
def ioCopy (w : World) (dst src : Path) : Option Err × World :=
  match w.fault (.read src), w.lookup src with
  | some e, _ => (some e, w.log (.sys (.read src) (some e)))
  | none, none => (some .notExist, w.log (.sys (.read src) (some .notExist)))
  | none, some (.dir _) => (some .isDir, w.log (.sys (.read src) (some .isDir)))
  | none, some (.file _ data) =>
    let w1 := w.log (.sys (.read src) none)
    match w1.fault (.write dst), w1.lookup dst with
    | some e, _ => (some e, w1.log (.sys (.write dst) (some e)))
    | none, some (.file m _) => (none, (w1.put dst (.file m data)).log (.sys (.write dst) none))
    | none, some (.dir _) => (some .isDir, w1.log (.sys (.write dst) (some .isDir)))
    | none, none => (some .notExist, w1.log (.sys (.write dst) (some .notExist)))

/-- The Go call `os.Chmod`. -/
def chmod (w : World) (p : Path) (mode : Nat) : Option Err × World :=
  let r : Option Err × World :=
    match w.fault (.chmod p) with
    | some e => (some e, w)
    | none =>
      match w.lookup p with
      | none => (some .notExist, w)
      | some (.file _ data) => (none, w.put p (.file mode data))
      | some (.dir _) => (none, w.put p (.dir mode))
  (r.1, r.2.log (.sys (.chmod p) r.1))

/-- The Go call `os.RemoveAll`, whose error the program drops. -/
def removeAll (w : World) (p : Path) : World :=
  { w with disk := w.disk.filter (fun kv => !(p.isPrefixOf kv.1)) }

/-! ## The directory copier -/

/-- The function `copyFile` of `main.go`. -/
def copyFile (w : World) (src dst : Path) : Option Err × World :=
  match openFile w src with
  | (some e, w) => (some e, w)
  | (none, w) =>
    match create w dst with
    | (some e, w) => (some e, w)
    | (none, w) =>
      match ioCopy w dst src with
      | (some e, w) => (some e, w)
      | (none, w) =>
        match stat w src with
        | (.error e, w) => (some e, w)
        | (.ok si, w) => chmod w dst si.mode

/-- The body of the loop of `copyDir` for one entry; `recur` is `copyDir`
itself. `none` is a run the bound on the recursion cuts short. -/
def copyEntry (recur : World → Path → Path → Option (Option Err × World))
    (w : World) (src dst : Path) (entry : DirEntry) : Option (Option Err × World) :=
  if entry.isDir then recur w (src ++ [entry.name]) (dst ++ [entry.name])
  else some (copyFile w (src ++ [entry.name]) (dst ++ [entry.name]))

/-- The loop of `copyDir` over the entries: the first error ends it. -/
def copyDirLoop (recur : World → Path → Path → Option (Option Err × World)) :
    List DirEntry → World → Path → Path → Option (Option Err × World)
  | [], w, _, _ => some (none, w)
  | entry :: rest, w, src, dst =>
    match copyEntry recur w src dst entry with
    | none => none
    | some (some e, w1) => some (some e, w1)
    | some (none, w1) => copyDirLoop recur rest w1 src dst

/-- The function `copyDir` of `main.go`, with a bound on the depth of the
recursion: `none` is a run the bound cuts short, `some (err, w)` a run that
returns `err` (`none` for `nil`) and leaves the world `w`. -/
def copyDir : Nat → World → Path → Path → Option (Option Err × World)
  | 0, _, _, _ => none
  | fuel + 1, w, src, dst =>
    match stat w src with
    | (.error e, w) => some (some e, w)
    | (.ok si, w) =>
      if !si.isDir then some (some .sourceNotDir, w)
      else
        match mkdirAll w dst si.mode with
        | (some e, w) => some (some e, w)
        | (none, w) =>
          match readDir w src with
          | (.error e, w) => some (some e, w)
          | (.ok entries, w) => copyDirLoop (copyDir fuel) entries w src dst

/-- The node `copyDir` does leave at a new destination path for a source
node: a file as it is, a directory with the umask taken off its mode. -/
def copiedNode (umask : Nat) : Option Node → Option Node
  | none => none
  | some (.file m data) => some (.file m data)
  | some (.dir m) => some (.dir (applyUmask umask m))

/-! ## Subprocesses, the dependency installer and the git initializer -/

/-- The text `%v` prints for an error. -/
def Err.text : Err → String
  | .notExist => "no such file or directory"
  | .notDir => "not a directory"
  | .isDir => "is a directory"
  | .exist => "file exists"
  | .sourceNotDir => "source is not a directory"
  | .errno _ => "system call failed"
  | .exitStatus _ => "exit status not zero"

/-- A path as it is printed. -/
def pathText (p : Path) : String := "/" ++ String.intercalate "/" p

/-- The error `os.Stat` returned, `none` for `nil`. -/
def statErr : Except Err Node → Option Err
  | .ok _ => none
  | .error e => some e

/-- What a subprocess does, which the program does not decide: from its
working directory, its name, its arguments and the disk, the error of
`cmd.Run` and the disk it leaves. -/
abbrev Exec := Path → String → List String → List (Path × Node) → Option Err × List (Path × Node)

/-- The function `runCommand` of `main.go`. -/
def runCommand (run : Exec) (w : World) (dir : Path) (name : String) (args : List String) :
    Option Err × World :=
  let r := run dir name args w.disk
  (r.1, ({ w with disk := r.2 }).log (.exec dir name args r.1))

/-- The function `installDeps` of `main.go`. -/
def installDeps (run : Exec) (w : World) (projectDir : Path) : World :=
  match stat w (projectDir ++ ["package.json"]) with
  | (.ok _, w) =>
    let w := w.print "📦 Found package.json, installing npm dependencies...\n"
    match runCommand run w projectDir "npm" ["install"] with
    | (some e, w) => w.print ("⚠️  Warning: npm install failed: " ++ e.text ++ "\n")
    | (none, w) => w.print "✅ npm dependencies installed successfully\n"
  | (.error _, w) =>
    match stat w (projectDir ++ ["requirements.txt"]) with
    | (.ok _, w) =>
      let w := w.print "📦 Found requirements.txt, installing pip dependencies...\n"
      match runCommand run w projectDir "pip" ["install", "-r", "requirements.txt"] with
      | (some _, w) =>
        match runCommand run w projectDir "pip3" ["install", "-r", "requirements.txt"] with
        | (some e, w) => w.print ("⚠️  Warning: pip install failed: " ++ e.text ++ "\n")
        | (none, w) => w.print "✅ pip dependencies installed successfully\n"
      | (none, w) => w.print "✅ pip dependencies installed successfully\n"
    | (.error _, w) =>
      match stat w (projectDir ++ ["go.mod"]) with
      | (.ok _, w) =>
        let w := w.print "📦 Found go.mod, installing Go dependencies...\n"
        match runCommand run w projectDir "go" ["mod", "tidy"] with
        | (some e, w) => w.print ("⚠️  Warning: go mod tidy failed: " ++ e.text ++ "\n")
        | (none, w) => w.print "✅ Go dependencies installed successfully\n"
      | (.error _, w) =>
        match stat w (projectDir ++ ["Cargo.toml"]) with
        | (.ok _, w) =>
          let w := w.print "📦 Found Cargo.toml, installing Rust dependencies...\n"
          match runCommand run w projectDir "cargo" ["fetch"] with
          | (some e, w) => w.print ("⚠️  Warning: cargo fetch failed: " ++ e.text ++ "\n")
          | (none, w) => w.print "✅ Rust dependencies fetched successfully\n"
        | (.error _, w) =>
          w.print "📦 No recognized dependency files found, skipping dependency installation\n"

/-- The function `initGit` of `main.go`; `gitOnPath` is the result of
`exec.LookPath("git")`. -/
def initGit (run : Exec) (w : World) (projectDir : Path) : World :=
  if !w.gitOnPath then w.print "⚠️  Git not found, skipping git initialization\n"
  else
    match stat w (projectDir ++ [".git"]) with
    | (.ok _, w) => w.print "📁 Directory is already a git repository\n"
    | (.error _, w) =>
      let w := w.print "🔧 Initializing git repository...\n"
      match runCommand run w projectDir "git" ["init"] with
      | (some e, w) => w.print ("⚠️  Warning: git init failed: " ++ e.text ++ "\n")
      | (none, w) =>
        let w := w.print "✅ Git repository initialized\n"
        let w := w.print "📝 Creating initial commit...\n"
        match runCommand run w projectDir "git" ["add", "."] with
        | (some e, w) => w.print ("⚠️  Warning: git add failed: " ++ e.text ++ "\n")
        | (none, w) =>
          match runCommand run w projectDir "git" ["commit", "-m", "Initial commit from Janus"] with
          | (some e, w) => w.print ("⚠️  Warning: git commit failed: " ++ e.text ++ "\n")
          | (none, w) => w.print "✅ Initial commit created\n"

/-- The subprocesses of a trace, in order, each with its result. -/
def commandsRun : List Event → List ((Path × String × List String) × Option Err)
  | [] => []
  | .exec dir name args r :: rest => ((dir, name, args), r) :: commandsRun rest
  | _ :: rest => commandsRun rest

/-- The texts printed in a trace, in order. -/
def printed : List Event → List String
  | [] => []
  | .print text :: rest => text :: printed rest
  | _ :: rest => printed rest

/-- The three git steps of `initGit`, in the order it runs them. -/
def gitSteps (projectDir : Path) : List (Path × String × List String) :=
  [(projectDir, "git", ["init"]), (projectDir, "git", ["add", "."]),
   (projectDir, "git", ["commit", "-m", "Initial commit from Janus"])]

/-- An event that leaves the disk as it is: a `stat`, a directory listing or a print. -/
def Event.readOnly : Event → Bool
  | .sys (.stat _) _ => true
  | .sys (.readDir _) _ => true
  | .print _ => true
  | _ => false

/-! ## Template resolution and `scaffoldProject` -/

/-- The pieces of a string between slashes. -/
def splitOnSlash : List Char → List (List Char)
  | [] => [[]]
  | c :: cs =>
    match splitOnSlash cs with
    | [] => [[c]]
    | seg :: segs => if c.toNat = 47 then [] :: seg :: segs else (c :: seg) :: segs

/-- One step of `filepath.Clean`: empty and `.` components vanish, `..` drops
the component before it. -/
def cleanStep (acc : Path) (seg : List Char) : Path :=
  if seg = [] ∨ seg = [Char.ofNat 46] then acc
  else if seg = [Char.ofNat 46, Char.ofNat 46] then acc.dropLast
  else acc ++ [String.mk seg]

/-- The Go call `filepath.Join(base, elem)` for a rooted `base`. -/
def joinPath (base : Path) (elem : String) : Path :=
  (splitOnSlash elem.data).foldl cleanStep base

/-- The function `getTemplatesPath` of `main.go`; `none` when the home
directory is unknown and `getJanusPath` ends the process. -/
def getTemplatesPath (w : World) : Option Path :=
  w.home.map (fun h => h ++ [".janus", "templates"])

/-- The white space of `unicode.IsSpace`, by code point. -/
def isSpace (c : Char) : Bool :=
  (9 ≤ c.toNat && c.toNat ≤ 13) || c.toNat == 32 || c.toNat == 133 || c.toNat == 160 ||
  c.toNat == 5760 || (8192 ≤ c.toNat && c.toNat ≤ 8202) || c.toNat == 8232 ||
  c.toNat == 8233 || c.toNat == 8239 || c.toNat == 8287 || c.toNat == 12288

/-- The Go call `strings.TrimSpace`. -/
def trimSpace (s : String) : String :=
  String.mk ((s.data.dropWhile isSpace).rdropWhile isSpace)

/-- The Go call `strings.Contains`. -/
def containsStr (s sub : String) : Bool := decide (sub.data <:+: s.data)

/-- The loop of `listOfflineTemplates` that prints the directories. -/
def printTemplates (w : World) : List DirEntry → World
  | [] => w
  | entry :: rest =>
    printTemplates (if entry.isDir then w.print ("  • " ++ entry.name ++ "\n") else w) rest

/-- The function `listOfflineTemplates` of `main.go`. -/
def listOfflineTemplates (w : World) : World :=
  match getTemplatesPath w with
  | none => w.print "Error getting home directory: $HOME is not defined\n"
  | some templatesPath =>
    match stat w templatesPath with
    | (.error .notExist, w) =>
      (w.print ("No templates directory found at: " ++ pathText templatesPath ++ "\n")).print
        "Create the directory and add your templates to get started.\n"
    | (_, w) =>
      match readDir w templatesPath with
      | (.error e, w) => w.print ("Error reading templates directory: " ++ e.text ++ "\n")
      | (.ok entries, w) =>
        if entries.length = 0 then
          w.print ("No templates found in: " ++ pathText templatesPath ++ "\n")
        else
          printTemplates
            (w.print ("Available offline templates (" ++ pathText templatesPath ++ "):\n"))
            entries

/-- The template name `scaffoldProject` derives from its arguments. -/
def templateNameOf (domain subdomain : String) : String :=
  if subdomain ≠ "" then domain ++ "-" ++ subdomain else domain

/-- The project name `scaffoldProject` settles on: the trimmed input line,
or the default when it is empty, sanitized. -/
def projectNameOf (caseTable : Char → Char) (domain subdomain input : String) : String :=
  let projectName := trimSpace input
  let projectName :=
    if projectName = "" then templateNameOf domain subdomain ++ "-app" else projectName
  sanitizeProjectName caseTable projectName

/-- The closing lines of `scaffoldProject`. -/
def printNextSteps (w : World) (templateName projectName : String) : World :=
  let w := w.print "\n🎉 Project ready! Next steps:\n"
  let w := w.print ("  cd " ++ projectName ++ "\n")
  if containsStr templateName "nextjs" || containsStr templateName "react" then
    w.print "  npm run dev\n"
  else if containsStr templateName "python" || containsStr templateName "flask" ||
      containsStr templateName "django" then
    w.print "  python main.py  # or your main file\n"
  else if containsStr templateName "node" || containsStr templateName "express" then
    w.print "  npm start\n"
  else w.print "  # Start coding!\n"

/-- The function `scaffoldProject` of `main.go`. `input` is the line read
from standard input, `fuel` the bound handed to `copyDir`; the project
directory is the entry `projectName` of the working directory. -/
def scaffoldProject (fuel : Nat) (run : Exec) (caseTable : Char → Char) (w : World)
    (domain subdomain input : String) : Option World :=
  let templateName := templateNameOf domain subdomain
  match getTemplatesPath w with
  | none => some (w.print "Error getting home directory: $HOME is not defined\n")
  | some templatesPath =>
    let templatePath := joinPath (joinPath templatesPath domain) subdomain
    match stat w templatePath with
    | (.error .notExist, w) =>
      let w := w.print ("Template '" ++ templateName ++ "' not found at: "
        ++ pathText templatePath ++ "\n")
      let w := w.print "Available templates:\n"
      some (listOfflineTemplates w)
    | (_, w) =>
      let w := w.print ("Enter your project name (default: " ++ templateName ++ "-app): ")
      let projectName := projectNameOf caseTable domain subdomain input
      let projectDir := w.cwd ++ [projectName]
      match stat w projectDir with
      | (.error .notExist, w) =>
        match mkdirAll w projectDir 0o755 with
        | (some e, w) => some (w.print ("Error creating target directory: " ++ e.text ++ "\n"))
        | (none, w) =>
          let w := w.print ("Scaffolding project '" ++ projectName ++ "' from template '"
            ++ templateName ++ "'...\n")
          match copyDir fuel w templatePath projectDir with
          | none => none
          | some (some e, w) =>
            let w := w.print ("Error copying template: " ++ e.text ++ "\n")
            some (removeAll w projectDir)
          | some (none, w) =>
            let w := w.print ("✅ Project scaffolded successfully in './" ++ projectName ++ "'\n")
            let w := installDeps run w projectDir
            let w := initGit run w projectDir
            some (printNextSteps w templateName projectName)
      | (_, w) =>
        some (w.print ("Directory '" ++ projectName
          ++ "' already exists. Aborting to avoid overwriting.\n"))

/-- The events a run added to the trace of the world it started from. -/
def newEvents (before after : World) : List Event :=
  after.trace.drop before.trace.length

/-- The run from `w` to `w1` left the disk alone and did nothing but look and print. -/
def Quiet (w w1 : World) : Prop :=
  w1.disk = w.disk ∧ w1.cwd = w.cwd ∧ w1.home = w.home ∧
    ∃ evs, w1.trace = w.trace ++ evs ∧ ∀ ev ∈ evs, ev.readOnly = true

/-- What every step of the copier keeps: the umask, the injected faults,
and the well-formedness of the disk. -/
def Ext (w w1 : World) : Prop :=
  w1.umask = w.umask ∧ w1.faults = w.faults ∧ (WellFormed w → WellFormed w1)

/-- What the loop of `copyDir` asks of the recursive call: on a well-formed
disk, for a source and a destination neither of which lies in the other, the
destination free and its parent a directory, a run that ends well leaves
under the destination the copy of what is under the source, and every path
outside the destination as it was. -/
def RecurOK (recur : World → Path → Path → Option (Option Err × World)) : Prop :=
  ∀ (w : World) (s d : Path) (w1 : World), recur w s d = some (none, w1) →
    WellFormed w → ¬ s <+: d → ¬ d <+: s → (∀ r, w.lookup (d ++ r) = none) →
    (∃ d0 x m, d = d0 ++ [x] ∧ w.lookup d0 = some (.dir m)) →
    (∀ q, ¬ d <+: q → w1.lookup q = w.lookup q) ∧
    (∀ r, w1.lookup (d ++ r) = copiedNode w.umask (w.lookup (s ++ r)))

/-- The length of the longest path on a disk: no object lies deeper. -/
def maxKeyLen : List (Path × Node) → Nat
  | [] => 0
  | kv :: rest => max kv.1.length (maxKeyLen rest)

/-! ## Sample worlds -/

/-- A template `t` of mode 0777 with a group-writable file and a
group-writable subdirectory, under a umask of 022; nothing is called `d` yet. -/
def sampleFresh : World :=
  { disk := [([], .dir 0o755), (["t"], .dir 0o777), (["t", "a.txt"], .file 0o664 [72, 105]),
             (["t", "sub"], .dir 0o775), (["t", "sub", "b.sh"], .file 0o755 [35, 33])]
    umask := 0o022, faults := [], home := none, cwd := [], gitOnPath := true, trace := [] }

/-- A template `t` of mode 0700 with a subdirectory, and the empty project
directory `d` that `scaffoldProject` made with mode 0755; the umask is 0. -/
def sampleExisting : World :=
  { disk := [([], .dir 0o755), (["t"], .dir 0o700), (["t", "sub"], .dir 0o750),
             (["d"], .dir 0o755)]
    umask := 0, faults := [], home := none, cwd := [], gitOnPath := true, trace := [] }

/-- The world `copyDir` leaves when it copies `t` to `d` in `sampleExisting`. -/
def sampleExistingDone : World :=
  match copyDir 3 sampleExisting ["t"] ["d"] with
  | some r => r.2
  | none => sampleExisting

/-- Subprocesses for the samples: `pip` is not installed, every other
command succeeds; none changes the disk. -/
def sampleRun : Exec :=
  fun _ name _ disk => (if name = "pip" then some (.exitStatus 127) else none, disk)

/-- A home with the template `py` (mode 0700, one file `requirements.txt`),
and a working directory `work` in which `taken` exists; the umask is 0. -/
def sampleTemplates : World :=
  { disk := [([], .dir 0o755), (["home"], .dir 0o755), (["home", ".janus"], .dir 0o755),
             (["home", ".janus", "templates"], .dir 0o755),
             (["home", ".janus", "templates", "py"], .dir 0o700),
             (["home", ".janus", "templates", "py", "requirements.txt"], .file 0o644 [102]),
             (["work"], .dir 0o755), (["work", "taken"], .dir 0o755)]
    umask := 0, faults := [], home := some ["home"], cwd := ["work"],
    gitOnPath := true, trace := [] }

/-- A project directory `p` that holds both `package.json` and `requirements.txt`. -/
def sampleBothMarkers : World :=
  { disk := [([], .dir 0o755), (["p"], .dir 0o755), (["p", "package.json"], .file 0o644 []),
             (["p", "requirements.txt"], .file 0o644 [])]
    umask := 0o022, faults := [], home := none, cwd := [], gitOnPath := true, trace := [] }

/-- A project directory `p` that holds `requirements.txt` only. -/
def samplePipOnly : World :=
  { disk := [([], .dir 0o755), (["p"], .dir 0o755), (["p", "requirements.txt"], .file 0o644 [])]
    umask := 0o022, faults := [], home := none, cwd := [], gitOnPath := true, trace := [] }

end Janus

/-! ## Theorems -/

namespace Janus

/-! ### The sanitizer -/

theorem toNat_ofNat_small (n : Nat) (h : n < 55296) : (Char.ofNat n).toNat = n := by
  have hv : n.isValidChar := Or.inl h
  simp only [Char.ofNat, dif_pos hv]
  rfl

theorem goodChar_spaceToHyphen (c : Char) (h : isInvalidChar c = false) :
    GoodChar (spaceToHyphen c) := by
  unfold spaceToHyphen
  split
  · constructor <;> decide
  · exact ⟨h, by assumption⟩

theorem goodChar_unicodeToLower {t : Char → Char} (ht : CaseTableOK t) (c : Char)
    (h : GoodChar c) : GoodChar (unicodeToLower t c) := by
  unfold unicodeToLower
  split
  · split
    · rename_i h1 h2
      have e : (Char.ofNat (c.toNat + 32)).toNat = c.toNat + 32 :=
        toNat_ofNat_small _ (by omega)
      unfold GoodChar isInvalidChar
      rw [e]
      constructor
      · simp only [Bool.or_eq_false_iff, beq_eq_false_iff_ne, ne_eq]
        omega
      · omega
    · exact h
  · rename_i h1
    have := ht c (by omega)
    exact ⟨this.1, this.2.1⟩

theorem unicodeToLower_idem {t : Char → Char} (ht : CaseTableOK t) (c : Char) :
    unicodeToLower t (unicodeToLower t c) = unicodeToLower t c := by
  by_cases h1 : c.toNat ≤ 127
  · by_cases h2 : 65 ≤ c.toNat ∧ c.toNat ≤ 90
    · have e : (Char.ofNat (c.toNat + 32)).toNat = c.toNat + 32 :=
        toNat_ofNat_small _ (by omega)
      have e1 : unicodeToLower t c = Char.ofNat (c.toNat + 32) := by
        simp [unicodeToLower, h1, h2]
      rw [e1]
      unfold unicodeToLower
      rw [e]
      rw [if_pos (by omega), if_neg (by omega)]
    · have e1 : unicodeToLower t c = c := by
        unfold unicodeToLower
        rw [if_pos h1, if_neg h2]
      rw [e1, e1]
  · have e1 : unicodeToLower t c = t c := by
      unfold unicodeToLower
      rw [if_neg h1]
    rw [e1]
    exact (ht c (by omega)).2.2

/-- Every character of the rewritten name is good and is its own lowercase. -/
theorem sanitizeChars_mem {t : Char → Char} (ht : CaseTableOK t) (l : List Char) (c : Char)
    (hc : c ∈ sanitizeChars t l) : GoodChar c ∧ unicodeToLower t c = c := by
  unfold sanitizeChars trimHyphenDot at hc
  have h1 := (List.rdropWhile_prefix isTrimChar _).subset hc
  have h2 := (List.dropWhile_suffix isTrimChar).subset h1
  simp only [List.mem_map, List.mem_filter, Bool.not_eq_true'] at h2
  obtain ⟨b, ⟨a, ⟨_, ha⟩, rfl⟩, rfl⟩ := h2
  exact ⟨goodChar_unicodeToLower ht _ (goodChar_spaceToHyphen a ha), unicodeToLower_idem ht _⟩

theorem dropWhile_rdropWhile_dropWhile (p : Char → Bool) (s : List Char) :
    ((s.dropWhile p).rdropWhile p).dropWhile p = (s.dropWhile p).rdropWhile p := by
  obtain ⟨r, hr⟩ := List.rdropWhile_prefix p (s.dropWhile p)
  cases hq : List.rdropWhile p (s.dropWhile p) with
  | nil => rfl
  | cons a as =>
    rw [hq] at hr
    have hne : s.dropWhile p ≠ [] := by
      rw [← hr]
      simp
    have h0 := List.head_dropWhile_not p s hne
    have ha : (s.dropWhile p).head hne = a := by
      simp only [← hr, List.cons_append, List.head_cons]
    rw [ha] at h0
    rw [List.dropWhile_cons_of_neg (by simp [h0])]

theorem trimHyphenDot_idem (s : List Char) :
    trimHyphenDot (trimHyphenDot s) = trimHyphenDot s := by
  unfold trimHyphenDot
  rw [dropWhile_rdropWhile_dropWhile, List.rdropWhile_idempotent]

theorem sanitizeChars_idem {t : Char → Char} (ht : CaseTableOK t) (l : List Char) :
    sanitizeChars t (sanitizeChars t l) = sanitizeChars t l := by
  have hm := sanitizeChars_mem ht l
  have e1 : (sanitizeChars t l).filter (fun c => !isInvalidChar c) = sanitizeChars t l := by
    rw [List.filter_eq_self]
    intro c hc
    simp [(hm c hc).1.1]
  have e2 : (sanitizeChars t l).map spaceToHyphen = sanitizeChars t l := by
    conv => rhs; rw [← List.map_id (sanitizeChars t l)]
    apply List.map_congr_left
    intro c hc
    simp [spaceToHyphen, (hm c hc).1.2]
  have e3 : (sanitizeChars t l).map (unicodeToLower t) = sanitizeChars t l := by
    conv => rhs; rw [← List.map_id (sanitizeChars t l)]
    apply List.map_congr_left
    intro c hc
    simp [(hm c hc).2]
  have e4 : sanitizeChars t (sanitizeChars t l)
      = trimHyphenDot ((((sanitizeChars t l).filter (fun c => !isInvalidChar c)).map
          spaceToHyphen).map (unicodeToLower t)) := rfl
  rw [e4, e1, e2, e3]
  exact trimHyphenDot_idem _

theorem sanitizeProjectName_fallback (t : Char → Char) :
    sanitizeProjectName t "my-project" = "my-project" := rfl

/-- C3: `sanitizeProjectName` is idempotent on every input string, for every
Unicode case table that satisfies `CaseTableOK`. -/
theorem sanitizeProjectName_idempotent (caseTable : Char → Char)
    (hT : CaseTableOK caseTable) (x : String) :
    sanitizeProjectName caseTable (sanitizeProjectName caseTable x)
      = sanitizeProjectName caseTable x := by
  by_cases h : sanitizeChars caseTable x.data = []
  · have e : sanitizeProjectName caseTable x = "my-project" := by
      simp [sanitizeProjectName, h]
    rw [e]
    rfl
  · have e : sanitizeProjectName caseTable x = String.mk (sanitizeChars caseTable x.data) := by
      simp [sanitizeProjectName, h]
    rw [e]
    simp only [sanitizeProjectName, sanitizeChars_idem hT, h, if_false]

theorem caseTableOK_id : CaseTableOK (fun c => c) := by
  intro c hc
  dsimp only
  refine ⟨?_, ?_, ?_⟩
  · simp only [isInvalidChar, Bool.or_eq_false_iff, beq_eq_false_iff_ne, ne_eq]
    omega
  · omega
  · unfold unicodeToLower
    rw [if_neg (by omega)]

/-- Witness of C3 on the input `"My Cool App!"`. -/
theorem sanitizeProjectName_idempotent_witness :
    CaseTableOK (fun c => c) ∧
    sanitizeProjectName (fun c => c) (sanitizeProjectName (fun c => c) "My Cool App!")
      = sanitizeProjectName (fun c => c) "My Cool App!" :=
  ⟨caseTableOK_id, sanitizeProjectName_idempotent _ caseTableOK_id "My Cool App!"⟩

/-- C4 as stated fails: on `"My Cool App!"` the result is not `"my-cool-app"`,
whatever the Unicode case table is. -/
theorem sanitizeProjectName_example_refuted :
    ¬ ∃ caseTable : Char → Char,
      sanitizeProjectName caseTable "My Cool App!" = "my-cool-app" := by
  rintro ⟨t, h⟩
  have e : sanitizeProjectName t "My Cool App!" = "my-cool-app!" := rfl
  rw [e] at h
  exact absurd h (by decide)

/-- C4 amended: `sanitizeProjectName` maps `"My Cool App!"` to `"my-cool-app!"`:
lowercased, spaces turned into hyphens, the exclamation mark kept (it is not in
the stripped character class). -/
theorem sanitizeProjectName_example (caseTable : Char → Char) :
    sanitizeProjectName caseTable "My Cool App!" = "my-cool-app!" := rfl

/-- C10: the sanitized name is a safe single path component: it is not empty,
holds none of the stripped characters (the slash and the backslash among
them) and no space, neither starts nor ends with a hyphen or a dot, and so is
neither `.` nor `..`. -/
theorem sanitizeProjectName_safe (caseTable : Char → Char)
    (hT : CaseTableOK caseTable) (x : String) :
    (sanitizeProjectName caseTable x).data ≠ [] ∧
    (∀ c ∈ (sanitizeProjectName caseTable x).data,
        isInvalidChar c = false ∧ c.toNat ≠ 32) ∧
    (∀ c, (sanitizeProjectName caseTable x).data.head? = some c → isTrimChar c = false) ∧
    (∀ c, (sanitizeProjectName caseTable x).data.getLast? = some c → isTrimChar c = false) ∧
    sanitizeProjectName caseTable x ≠ "." ∧ sanitizeProjectName caseTable x ≠ ".." := by
  have key : (sanitizeProjectName caseTable x).data ≠ [] ∧
      (∀ c ∈ (sanitizeProjectName caseTable x).data,
        isInvalidChar c = false ∧ c.toNat ≠ 32) ∧
      (∀ c, (sanitizeProjectName caseTable x).data.head? = some c → isTrimChar c = false) ∧
      (∀ c, (sanitizeProjectName caseTable x).data.getLast? = some c →
        isTrimChar c = false) := by
    by_cases h : sanitizeChars caseTable x.data = []
    · have e : sanitizeProjectName caseTable x = "my-project" := by
        simp [sanitizeProjectName, h]
      rw [e]
      refine ⟨by decide, by decide, ?_, ?_⟩
      · intro c hc
        have : c = Char.ofNat 109 := by
          have h2 : "my-project".data.head? = some (Char.ofNat 109) := by decide
          rw [h2] at hc
          exact (Option.some.inj hc).symm
        subst this
        decide
      · intro c hc
        have : c = Char.ofNat 116 := by
          have h2 : "my-project".data.getLast? = some (Char.ofNat 116) := by decide
          rw [h2] at hc
          exact (Option.some.inj hc).symm
        subst this
        decide
    · have e : (sanitizeProjectName caseTable x).data = sanitizeChars caseTable x.data := by
        simp [sanitizeProjectName, h]
      rw [e]
      refine ⟨h, fun c hc => (sanitizeChars_mem hT _ c hc).1, ?_, ?_⟩
      · intro c hc
        have hfix : (sanitizeChars caseTable x.data).dropWhile isTrimChar
            = sanitizeChars caseTable x.data := by
          unfold sanitizeChars trimHyphenDot
          exact dropWhile_rdropWhile_dropWhile _ _
        rw [List.dropWhile_eq_self_iff] at hfix
        have hpos : 0 < (sanitizeChars caseTable x.data).length :=
          List.length_pos.mpr h
        have h0 := hfix hpos
        have : (sanitizeChars caseTable x.data).get ⟨0, hpos⟩ = c := by
          rw [List.head?_eq_head h] at hc
          rw [← Option.some.inj hc, List.get_eq_getElem, List.head_eq_getElem]
        rw [this] at h0
        simpa using h0
      · intro c hc
        have hne : List.rdropWhile isTrimChar
            ((((x.data.filter (fun c => !isInvalidChar c)).map spaceToHyphen).map
              (unicodeToLower caseTable)).dropWhile isTrimChar) ≠ [] := h
        have h0 := List.rdropWhile_last_not isTrimChar _ hne
        have : (sanitizeChars caseTable x.data).getLast h = c := by
          rw [List.getLast?_eq_getLast _ h] at hc
          exact Option.some.inj hc
        have h0 : ¬ isTrimChar ((sanitizeChars caseTable x.data).getLast h) = true := h0
        rw [this] at h0
        simpa using h0
  refine ⟨key.1, key.2.1, key.2.2.1, key.2.2.2, ?_, ?_⟩
  · intro e
    have := key.2.2.1 (Char.ofNat 46) (by rw [e]; decide)
    exact absurd this (by decide)
  · intro e
    have := key.2.2.1 (Char.ofNat 46) (by rw [e]; decide)
    exact absurd this (by decide)

/-- Witness of C10 on the input `"../etc"`. -/
theorem sanitizeProjectName_safe_witness :
    CaseTableOK (fun c => c) ∧ sanitizeProjectName (fun c => c) "../etc" ≠ ".." :=
  ⟨caseTableOK_id, (sanitizeProjectName_safe _ caseTableOK_id "../etc").2.2.2.2.2⟩

/-! ### Worlds, traces and system calls -/

@[simp] theorem log_disk (w : World) (ev : Event) : (w.log ev).disk = w.disk := rfl
@[simp] theorem log_umask (w : World) (ev : Event) : (w.log ev).umask = w.umask := rfl
@[simp] theorem log_faults (w : World) (ev : Event) : (w.log ev).faults = w.faults := rfl
@[simp] theorem log_home (w : World) (ev : Event) : (w.log ev).home = w.home := rfl
@[simp] theorem log_cwd (w : World) (ev : Event) : (w.log ev).cwd = w.cwd := rfl
@[simp] theorem log_gitOnPath (w : World) (ev : Event) :
    (w.log ev).gitOnPath = w.gitOnPath := rfl
@[simp] theorem log_trace (w : World) (ev : Event) : (w.log ev).trace = w.trace ++ [ev] := rfl
@[simp] theorem log_lookup (w : World) (ev : Event) (p : Path) :
    (w.log ev).lookup p = w.lookup p := rfl
@[simp] theorem log_fault (w : World) (ev : Event) (op : Op) :
    (w.log ev).fault op = w.fault op := rfl

@[simp] theorem print_disk (w : World) (t : String) : (w.print t).disk = w.disk := rfl
@[simp] theorem print_umask (w : World) (t : String) : (w.print t).umask = w.umask := rfl
@[simp] theorem print_faults (w : World) (t : String) : (w.print t).faults = w.faults := rfl
@[simp] theorem print_home (w : World) (t : String) : (w.print t).home = w.home := rfl
@[simp] theorem print_cwd (w : World) (t : String) : (w.print t).cwd = w.cwd := rfl
@[simp] theorem print_gitOnPath (w : World) (t : String) :
    (w.print t).gitOnPath = w.gitOnPath := rfl
@[simp] theorem print_trace (w : World) (t : String) :
    (w.print t).trace = w.trace ++ [.print t] := rfl
@[simp] theorem print_lookup (w : World) (t : String) (p : Path) :
    (w.print t).lookup p = w.lookup p := rfl

@[simp] theorem put_umask (w : World) (p : Path) (n : Node) : (w.put p n).umask = w.umask := rfl
@[simp] theorem put_faults (w : World) (p : Path) (n : Node) :
    (w.put p n).faults = w.faults := rfl
@[simp] theorem put_trace (w : World) (p : Path) (n : Node) : (w.put p n).trace = w.trace := rfl
@[simp] theorem put_fault (w : World) (p : Path) (n : Node) (op : Op) :
    (w.put p n).fault op = w.fault op := rfl
theorem put_lookup (w : World) (p q : Path) (n : Node) :
    (w.put p n).lookup q = if p = q then some n else w.lookup q := rfl

theorem stat_of_none {w : World} {p : Path} (h : w.lookup p = none) :
    stat w p = (.error .notExist, w.log (.sys (.stat p) (some .notExist))) := by
  simp [stat, h]

theorem stat_of_some {w : World} {p : Path} {n : Node} (h : w.lookup p = some n) :
    stat w p = (.ok n, w.log (.sys (.stat p) none)) := by
  simp [stat, h]

theorem exists_of_ne_none {o : Option Node} (h : o ≠ none) : ∃ n, o = some n := by
  cases o with
  | none => exact absurd rfl h
  | some n => exact ⟨n, rfl⟩

@[simp] theorem commandsRun_append (a b : List Event) :
    commandsRun (a ++ b) = commandsRun a ++ commandsRun b := by
  induction a with
  | nil => rfl
  | cons ev rest ih => cases ev <;> simp [commandsRun, ih]

@[simp] theorem printed_append (a b : List Event) :
    printed (a ++ b) = printed a ++ printed b := by
  induction a with
  | nil => rfl
  | cons ev rest ih => cases ev <;> simp [printed, ih]

theorem newEvents_of_trace {w w' : World} {evs : List Event}
    (h : w'.trace = w.trace ++ evs) : newEvents w w' = evs := by
  simp [newEvents, h]

@[simp] theorem runCommand_fst (run : Exec) (w : World) (d : Path) (name : String)
    (args : List String) : (runCommand run w d name args).1 = (run d name args w.disk).1 := rfl

@[simp] theorem runCommand_trace (run : Exec) (w : World) (d : Path) (name : String)
    (args : List String) :
    (runCommand run w d name args).2.trace
      = w.trace ++ [.exec d name args (run d name args w.disk).1] := rfl

@[simp] theorem runCommand_disk (run : Exec) (w : World) (d : Path) (name : String)
    (args : List String) :
    (runCommand run w d name args).2.disk = (run d name args w.disk).2 := rfl

/-! ### The dependency installer -/

theorem runCommand_eq {run : Exec} {w w1 : World} {d : Path} {name : String}
    {args : List String} {r : Option Err} (h : runCommand run w d name args = (r, w1)) :
    r = (run d name args w.disk).1 ∧ w1.trace = w.trace ++ [.exec d name args r] ∧
      w1.disk = (run d name args w.disk).2 := by
  have h1 := congrArg (fun x => x.1) h
  have h2 := congrArg (fun x => x.2) h
  simp only at h1 h2
  subst h1
  subst h2
  exact ⟨rfl, rfl, rfl⟩

/-- C5: `installDeps` runs the install command of one ecosystem at most, the
first in the order `package.json`, `requirements.txt`, `go.mod`, `Cargo.toml`
whose marker file is in the project directory, and no command when none is. -/
theorem installDeps_priority (run : Exec) (w : World) (d : Path) :
    (w.lookup (d ++ ["package.json"]) ≠ none →
      (commandsRun (newEvents w (installDeps run w d))).map Prod.fst
        = [(d, "npm", ["install"])]) ∧
    (w.lookup (d ++ ["package.json"]) = none →
      w.lookup (d ++ ["requirements.txt"]) ≠ none →
      (commandsRun (newEvents w (installDeps run w d))).map Prod.fst
          = [(d, "pip", ["install", "-r", "requirements.txt"])] ∨
        (commandsRun (newEvents w (installDeps run w d))).map Prod.fst
          = [(d, "pip", ["install", "-r", "requirements.txt"]),
             (d, "pip3", ["install", "-r", "requirements.txt"])]) ∧
    (w.lookup (d ++ ["package.json"]) = none →
      w.lookup (d ++ ["requirements.txt"]) = none →
      w.lookup (d ++ ["go.mod"]) ≠ none →
      (commandsRun (newEvents w (installDeps run w d))).map Prod.fst
        = [(d, "go", ["mod", "tidy"])]) ∧
    (w.lookup (d ++ ["package.json"]) = none →
      w.lookup (d ++ ["requirements.txt"]) = none →
      w.lookup (d ++ ["go.mod"]) = none →
      w.lookup (d ++ ["Cargo.toml"]) ≠ none →
      (commandsRun (newEvents w (installDeps run w d))).map Prod.fst
        = [(d, "cargo", ["fetch"])]) ∧
    (w.lookup (d ++ ["package.json"]) = none →
      w.lookup (d ++ ["requirements.txt"]) = none →
      w.lookup (d ++ ["go.mod"]) = none →
      w.lookup (d ++ ["Cargo.toml"]) = none →
      commandsRun (newEvents w (installDeps run w d)) = []) := by
  refine ⟨?_, ?_, ?_, ?_, ?_⟩
  · intro h
    obtain ⟨n, hn⟩ := exists_of_ne_none h
    unfold installDeps
    rw [stat_of_some hn]
    dsimp only
    split
    · rename_i heq
      obtain ⟨_, ht, _⟩ := runCommand_eq heq
      simp [newEvents, ht, commandsRun]
    · rename_i heq
      obtain ⟨_, ht, _⟩ := runCommand_eq heq
      simp [newEvents, ht, commandsRun]
  · intro h0 h
    obtain ⟨n, hn⟩ := exists_of_ne_none h
    unfold installDeps
    rw [stat_of_none h0]
    dsimp only
    rw [stat_of_some (w := w.log _) (by simpa using hn)]
    dsimp only
    split
    · rename_i heq
      obtain ⟨_, ht, _⟩ := runCommand_eq heq
      split
      · rename_i heq2
        obtain ⟨_, ht2, _⟩ := runCommand_eq heq2
        right
        simp [newEvents, ht, ht2, commandsRun]
      · rename_i heq2
        obtain ⟨_, ht2, _⟩ := runCommand_eq heq2
        right
        simp [newEvents, ht, ht2, commandsRun]
    · rename_i heq
      obtain ⟨_, ht, _⟩ := runCommand_eq heq
      left
      simp [newEvents, ht, commandsRun]
  · intro h0 h1 h
    obtain ⟨n, hn⟩ := exists_of_ne_none h
    unfold installDeps
    rw [stat_of_none h0]
    dsimp only
    rw [stat_of_none (w := w.log _) (by simpa using h1)]
    dsimp only
    rw [stat_of_some (w := (w.log _).log _) (by simpa using hn)]
    dsimp only
    split
    · rename_i heq
      obtain ⟨_, ht, _⟩ := runCommand_eq heq
      simp [newEvents, ht, commandsRun]
    · rename_i heq
      obtain ⟨_, ht, _⟩ := runCommand_eq heq
      simp [newEvents, ht, commandsRun]
  · intro h0 h1 h2 h
    obtain ⟨n, hn⟩ := exists_of_ne_none h
    unfold installDeps
    rw [stat_of_none h0]
    dsimp only
    rw [stat_of_none (w := w.log _) (by simpa using h1)]
    dsimp only
    rw [stat_of_none (w := (w.log _).log _) (by simpa using h2)]
    dsimp only
    rw [stat_of_some (w := ((w.log _).log _).log _) (by simpa using hn)]
    dsimp only
    split
    · rename_i heq
      obtain ⟨_, ht, _⟩ := runCommand_eq heq
      simp [newEvents, ht, commandsRun]
    · rename_i heq
      obtain ⟨_, ht, _⟩ := runCommand_eq heq
      simp [newEvents, ht, commandsRun]
  · intro h0 h1 h2 h3
    unfold installDeps
    rw [stat_of_none h0]
    dsimp only
    rw [stat_of_none (w := w.log _) (by simpa using h1)]
    dsimp only
    rw [stat_of_none (w := (w.log _).log _) (by simpa using h2)]
    dsimp only
    rw [stat_of_none (w := ((w.log _).log _).log _) (by simpa using h3)]
    simp [newEvents, commandsRun]

/-- C6: with `requirements.txt` and no `package.json`, `installDeps` runs
`pip install -r requirements.txt` once, then `pip3` with the same arguments
once exactly when `pip` failed, runs nothing else, and after the line that
announces the file prints the warning exactly when both failed and the success
line otherwise. -/
theorem installDeps_pip_fallback (run : Exec) (w : World) (d : Path)
    (hpkg : w.lookup (d ++ ["package.json"]) = none)
    (hreq : w.lookup (d ++ ["requirements.txt"]) ≠ none) :
    commandsRun (newEvents w (installDeps run w d))
      = (match (run d "pip" ["install", "-r", "requirements.txt"] w.disk).1 with
        | none => [((d, "pip", ["install", "-r", "requirements.txt"]), none)]
        | some e =>
          [((d, "pip", ["install", "-r", "requirements.txt"]), some e),
           ((d, "pip3", ["install", "-r", "requirements.txt"]),
            (run d "pip3" ["install", "-r", "requirements.txt"]
              (run d "pip" ["install", "-r", "requirements.txt"] w.disk).2).1)]) ∧
    printed (newEvents w (installDeps run w d))
      = ["📦 Found requirements.txt, installing pip dependencies...\n",
         (match (run d "pip" ["install", "-r", "requirements.txt"] w.disk).1,
            (run d "pip3" ["install", "-r", "requirements.txt"]
              (run d "pip" ["install", "-r", "requirements.txt"] w.disk).2).1 with
          | some _, some e => "⚠️  Warning: pip install failed: " ++ e.text ++ "\n"
          | _, _ => "✅ pip dependencies installed successfully\n")] := by
  obtain ⟨n, hn⟩ := exists_of_ne_none hreq
  unfold installDeps
  rw [stat_of_none hpkg]
  dsimp only
  rw [stat_of_some (w := w.log _) (by simpa using hn)]
  dsimp only
  split
  · rename_i e1 w1 heq
    obtain ⟨hr, ht, hd⟩ := runCommand_eq heq
    simp only [print_disk, log_disk] at hr hd
    split
    · rename_i e2 w2 heq2
      obtain ⟨hr2, ht2, _⟩ := runCommand_eq heq2
      rw [hd] at hr2
      rw [← hr, ← hr2]
      simp [newEvents, ht, ht2, commandsRun, printed]
    · rename_i w2 heq2
      obtain ⟨hr2, ht2, _⟩ := runCommand_eq heq2
      rw [hd] at hr2
      rw [← hr, ← hr2]
      simp [newEvents, ht, ht2, commandsRun, printed]
  · rename_i w1 heq
    obtain ⟨hr, ht, hd⟩ := runCommand_eq heq
    simp only [print_disk, log_disk] at hr
    rw [← hr]
    simp [newEvents, ht, commandsRun, printed]

/-- C7: `initGit` runs a prefix of `git init`, `git add .`, `git commit` in
the project directory: nothing when git is not on the search path or `.git`
exists, `git init` at least otherwise; every step but the last one run
succeeded, and a run of fewer than three steps ends on a step that failed. -/
theorem initGit_steps (run : Exec) (w : World) (d : Path) :
    (commandsRun (newEvents w (initGit run w d))).map Prod.fst <+: gitSteps d ∧
    (w.gitOnPath = false ∨ w.lookup (d ++ [".git"]) ≠ none →
      commandsRun (newEvents w (initGit run w d)) = []) ∧
    (w.gitOnPath = true → w.lookup (d ++ [".git"]) = none →
      (commandsRun (newEvents w (initGit run w d))).head?
        = some ((d, "git", ["init"]), (run d "git" ["init"] w.disk).1)) ∧
    (∀ c ∈ (commandsRun (newEvents w (initGit run w d))).dropLast, c.2 = none) ∧
    (∀ c, (commandsRun (newEvents w (initGit run w d))).length < 3 →
      (commandsRun (newEvents w (initGit run w d))).getLast? = some c → c.2 ≠ none) := by
  unfold initGit
  cases hg : w.gitOnPath with
  | false =>
    simp [newEvents, commandsRun]
  | true =>
    simp only [Bool.not_true, Bool.false_eq_true, if_false]
    cases hl : w.lookup (d ++ [".git"]) with
    | some n =>
      rw [stat_of_some hl]
      simp [newEvents, commandsRun]
    | none =>
      rw [stat_of_none hl]
      dsimp only
      split
      · rename_i e1 w1 heq
        obtain ⟨hr, ht, hd⟩ := runCommand_eq heq
        simp only [print_disk, log_disk] at hr
        rw [← hr]
        simp [newEvents, ht, commandsRun, gitSteps]
      · rename_i w1 heq
        obtain ⟨hr, ht, hd⟩ := runCommand_eq heq
        simp only [print_disk, log_disk] at hr
        rw [← hr]
        split
        · rename_i e2 w2 heq2
          obtain ⟨hr2, ht2, _⟩ := runCommand_eq heq2
          simp [newEvents, ht, ht2, commandsRun, gitSteps]
        · rename_i w2 heq2
          obtain ⟨hr2, ht2, _⟩ := runCommand_eq heq2
          split
          · rename_i e3 w3 heq3
            obtain ⟨hr3, ht3, _⟩ := runCommand_eq heq3
            simp [newEvents, ht, ht2, ht3, commandsRun, gitSteps]
          · rename_i w3 heq3
            obtain ⟨hr3, ht3, _⟩ := runCommand_eq heq3
            simp [newEvents, ht, ht2, ht3, commandsRun, gitSteps]

/-! ### `scaffoldProject` when the project directory is already there -/

theorem quiet_refl (w : World) : Quiet w w :=
  ⟨rfl, rfl, rfl, [], by simp, by simp⟩

theorem quiet_trans {a b c : World} (h1 : Quiet a b) (h2 : Quiet b c) : Quiet a c := by
  obtain ⟨d1, c1, m1, e1, t1, r1⟩ := h1
  obtain ⟨d2, c2, m2, e2, t2, r2⟩ := h2
  refine ⟨d2.trans d1, c2.trans c1, m2.trans m1, e1 ++ e2, ?_, ?_⟩
  · rw [t2, t1, List.append_assoc]
  · intro ev hev
    rcases List.mem_append.mp hev with h | h
    · exact r1 ev h
    · exact r2 ev h

theorem quiet_log (w : World) (ev : Event) (h : ev.readOnly = true) : Quiet w (w.log ev) :=
  ⟨rfl, rfl, rfl, [ev], rfl, by simpa using h⟩

theorem quiet_print (w : World) (t : String) : Quiet w (w.print t) :=
  quiet_log w (.print t) rfl

theorem quiet_stat (w : World) (p : Path) : Quiet w (stat w p).2 := by
  unfold stat
  cases w.lookup p <;> exact quiet_log _ _ rfl

theorem quiet_readDir (w : World) (p : Path) : Quiet w (readDir w p).2 :=
  quiet_log _ _ rfl

theorem quiet_printAll (entries : List DirEntry) :
    ∀ w : World, Quiet w (printTemplates w entries) := by
  induction entries with
  | nil => exact fun w => quiet_refl w
  | cons entry rest ih =>
    intro w
    unfold printTemplates
    by_cases h : entry.isDir = true
    · rw [if_pos h]
      exact quiet_trans (quiet_print w _) (ih _)
    · rw [if_neg h]
      exact ih w

theorem quiet_listOfflineTemplates (w : World) : Quiet w (listOfflineTemplates w) := by
  unfold listOfflineTemplates
  cases hh : getTemplatesPath w with
  | none => exact quiet_print w _
  | some tp =>
    dsimp only
    have hs := quiet_stat w tp
    have key : ∀ w1 : World, Quiet w w1 →
        Quiet w (match readDir w1 tp with
          | (.error e, w) => w.print ("Error reading templates directory: " ++ e.text ++ "\n")
          | (.ok entries, w) =>
            if entries.length = 0 then
              w.print ("No templates found in: " ++ pathText tp ++ "\n")
            else
              printTemplates
                (w.print ("Available offline templates (" ++ pathText tp ++ "):\n"))
                entries) := by
      intro w1 hq
      have hr := quiet_readDir w1 tp
      rcases hrd : readDir w1 tp with ⟨_ | entries, w2⟩
      · rw [hrd] at hr
        exact quiet_trans hq (quiet_trans hr (quiet_print _ _))
      · rw [hrd] at hr
        dsimp only
        split
        · exact quiet_trans hq (quiet_trans hr (quiet_print _ _))
        · exact quiet_trans hq (quiet_trans hr
            (quiet_trans (quiet_print _ _) (quiet_printAll _ _)))
    rcases hst : stat w tp with ⟨_ | n, w1⟩
    · rw [hst] at hs
      rename_i e
      cases e <;> first
        | exact quiet_trans hs (quiet_trans (quiet_print _ _) (quiet_print _ _))
        | exact key w1 hs
    · rw [hst] at hs
      exact key w1 hs

theorem commandsRun_of_readOnly (evs : List Event) (h : ∀ ev ∈ evs, ev.readOnly = true) :
    commandsRun evs = [] := by
  induction evs with
  | nil => rfl
  | cons ev rest ih =>
    have h1 := h ev (by simp)
    have h2 := ih (fun e he => h e (by simp [he]))
    cases ev <;> simp_all [commandsRun, Event.readOnly]

/-- C9: when the sanitized project name already names an entry of the
working directory, `scaffoldProject` returns with the disk as it was: what it
did is look at the disk and print, it started no subprocess. -/
theorem scaffoldProject_abort (fuel : Nat) (run : Exec) (caseTable : Char → Char) (w : World)
    (domain subdomain input : String)
    (hex : w.lookup (w.cwd ++ [projectNameOf caseTable domain subdomain input]) ≠ none) :
    ∃ w1, scaffoldProject fuel run caseTable w domain subdomain input = some w1 ∧
      w1.disk = w.disk ∧ commandsRun (newEvents w w1) = [] ∧
      ∀ ev ∈ newEvents w w1, ev.readOnly = true := by
  have fin : ∀ w1, Quiet w w1 → w1.disk = w.disk ∧ commandsRun (newEvents w w1) = [] ∧
      ∀ ev ∈ newEvents w w1, ev.readOnly = true := by
    intro w1 hq
    obtain ⟨hd, _, _, evs, ht, hr⟩ := hq
    rw [newEvents_of_trace ht]
    exact ⟨hd, commandsRun_of_readOnly evs hr, hr⟩
  obtain ⟨n, hn⟩ := exists_of_ne_none hex
  unfold scaffoldProject
  cases hh : getTemplatesPath w with
  | none => exact ⟨_, rfl, fin _ (quiet_print w _)⟩
  | some tp =>
    dsimp only
    have hs := quiet_stat w (joinPath (joinPath tp domain) subdomain)
    have key : ∀ w1 : World, Quiet w w1 →
        ∃ w2, (match stat
              (w1.print ("Enter your project name (default: "
                ++ templateNameOf domain subdomain ++ "-app): "))
              ((w1.print ("Enter your project name (default: "
                ++ templateNameOf domain subdomain ++ "-app): ")).cwd
                ++ [projectNameOf caseTable domain subdomain input]) with
          | (.error .notExist, w) =>
            match mkdirAll w
              ((w1.print ("Enter your project name (default: "
                ++ templateNameOf domain subdomain ++ "-app): ")).cwd
                ++ [projectNameOf caseTable domain subdomain input]) 0o755 with
            | (some e, w) =>
              some (w.print ("Error creating target directory: " ++ e.text ++ "\n"))
            | (none, w) =>
              match copyDir fuel
                (w.print ("Scaffolding project '"
                  ++ projectNameOf caseTable domain subdomain input ++ "' from template '"
                  ++ templateNameOf domain subdomain ++ "'...\n"))
                (joinPath (joinPath tp domain) subdomain)
                ((w1.print ("Enter your project name (default: "
                  ++ templateNameOf domain subdomain ++ "-app): ")).cwd
                  ++ [projectNameOf caseTable domain subdomain input]) with
              | none => none
              | some (some e, w) =>
                some (removeAll (w.print ("Error copying template: " ++ e.text ++ "\n"))
                  ((w1.print ("Enter your project name (default: "
                    ++ templateNameOf domain subdomain ++ "-app): ")).cwd
                    ++ [projectNameOf caseTable domain subdomain input]))
              | some (none, w) =>
                some (printNextSteps
                  (initGit run
                    (installDeps run
                      (w.print ("✅ Project scaffolded successfully in './"
                        ++ projectNameOf caseTable domain subdomain input ++ "'\n"))
                      ((w1.print ("Enter your project name (default: "
                        ++ templateNameOf domain subdomain ++ "-app): ")).cwd
                        ++ [projectNameOf caseTable domain subdomain input]))
                    ((w1.print ("Enter your project name (default: "
                      ++ templateNameOf domain subdomain ++ "-app): ")).cwd
                      ++ [projectNameOf caseTable domain subdomain input]))
                  (templateNameOf domain subdomain)
                  (projectNameOf caseTable domain subdomain input))
          | (_, w) =>
            some (w.print ("Directory '" ++ projectNameOf caseTable domain subdomain input
              ++ "' already exists. Aborting to avoid overwriting.\n"))) = some w2 ∧
          Quiet w w2 := by
      intro w1 hq
      have hl : (w1.print ("Enter your project name (default: "
          ++ templateNameOf domain subdomain ++ "-app): ")).lookup
          ((w1.print ("Enter your project name (default: "
            ++ templateNameOf domain subdomain ++ "-app): ")).cwd
            ++ [projectNameOf caseTable domain subdomain input]) = some n := by
        simp only [print_cwd, print_lookup]
        rw [hq.2.1]
        unfold World.lookup
        rw [hq.1]
        exact hn
      rw [stat_of_some hl]
      exact ⟨_, rfl, quiet_trans hq (quiet_trans (quiet_print _ _)
        (quiet_trans (quiet_log _ (.sys (.stat _) none) rfl) (quiet_print _ _)))⟩
    rcases hst : stat w (joinPath (joinPath tp domain) subdomain) with ⟨_ | n1, w1⟩
    · rw [hst] at hs
      rename_i e
      cases e
      case notExist =>
        exact ⟨_, rfl, fin _ (quiet_trans hs (quiet_trans (quiet_print _ _)
          (quiet_trans (quiet_print _ _) (quiet_listOfflineTemplates _))))⟩
      all_goals
        obtain ⟨w2, h2, hq2⟩ := key w1 hs
        exact ⟨w2, h2, fin _ hq2⟩
    · rw [hst] at hs
      obtain ⟨w2, h2, hq2⟩ := key w1 hs
      exact ⟨w2, h2, fin _ hq2⟩

/-! ### System calls: what they keep and what they change -/

theorem ext_refl (w : World) : Ext w w := ⟨rfl, rfl, id⟩

theorem ext_trans {a b c : World} (h1 : Ext a b) (h2 : Ext b c) : Ext a c :=
  ⟨h2.1.trans h1.1, h2.2.1.trans h1.2.1, fun h => h2.2.2 (h1.2.2 h)⟩

theorem ext_log (w : World) (ev : Event) : Ext w (w.log ev) := ⟨rfl, rfl, id⟩

theorem ext_print (w : World) (t : String) : Ext w (w.print t) := ⟨rfl, rfl, id⟩

theorem path_ne_append_singleton (q : Path) (x : String) : q ++ [x] ≠ q := by
  intro h
  have := congrArg List.length h
  simp at this

/-- A new object in a directory keeps the disk well formed. -/
theorem ext_put_new {w : World} {p : Path} (n : Node) (hp : w.lookup p = none)
    (hd : ∃ m, w.lookup p.dropLast = some (.dir m)) : Ext w (w.put p n) := by
  refine ⟨rfl, rfl, ?_⟩
  intro hwf q x hq
  rw [put_lookup] at hq
  rw [put_lookup]
  by_cases h1 : p = q ++ [x]
  · subst h1
    rw [if_neg (path_ne_append_singleton q x)]
    simpa using hd
  · rw [if_neg h1] at hq
    obtain ⟨m, hm⟩ := hwf q x hq
    have : p ≠ q := by
      intro h
      rw [h, hm] at hp
      exact absurd hp (by simp)
    rw [if_neg this]
    exact ⟨m, hm⟩

/-- Replacing an object by one of the same kind keeps the disk well formed. -/
theorem ext_put_kind {w : World} {p : Path} {n0 : Node} (n : Node)
    (hp : w.lookup p = some n0) (hk : n.isDir = n0.isDir) : Ext w (w.put p n) := by
  refine ⟨rfl, rfl, ?_⟩
  intro hwf q x hq
  rw [put_lookup] at hq
  rw [put_lookup]
  have hq2 : w.lookup (q ++ [x]) ≠ none := by
    by_cases h1 : p = q ++ [x]
    · rw [← h1, hp]
      simp
    · rwa [if_neg h1] at hq
  obtain ⟨m, hm⟩ := hwf q x hq2
  by_cases h2 : p = q
  · rw [if_pos h2]
    rw [h2, hm] at hp
    have : n0 = .dir m := (Option.some.inj hp).symm
    subst this
    cases n with
    | file m1 data => simp [Node.isDir] at hk
    | dir m1 => exact ⟨m1, rfl⟩
  · rw [if_neg h2]
    exact ⟨m, hm⟩

theorem stat_snd (w : World) (p : Path) :
    (stat w p).2 = w.log (.sys (.stat p) (statErr (stat w p).1)) := by
  unfold stat
  cases w.lookup p <;> rfl

theorem stat_ok_eq {w w1 : World} {p : Path} {n : Node} (h : stat w p = (.ok n, w1)) :
    w1 = w.log (.sys (.stat p) none) ∧ w.lookup p = some n := by
  unfold stat at h
  cases hl : w.lookup p with
  | none => simp [hl] at h
  | some n =>
    simp only [hl, Prod.mk.injEq, Except.ok.injEq] at h
    obtain ⟨rfl, rfl⟩ := h
    exact ⟨rfl, rfl⟩

theorem stat_err_eq {w w1 : World} {p : Path} {e : Err} (h : stat w p = (.error e, w1)) :
    w1 = w.log (.sys (.stat p) (some .notExist)) ∧ w.lookup p = none ∧ e = .notExist := by
  unfold stat at h
  cases hl : w.lookup p with
  | none =>
    simp only [hl, Prod.mk.injEq, Except.error.injEq] at h
    obtain ⟨rfl, rfl⟩ := h
    exact ⟨rfl, rfl, rfl⟩
  | some n => simp [hl] at h

theorem mkdir_ok {w w1 : World} {p : Path} {perm : Nat} (h : mkdir w p perm = (none, w1)) :
    w.lookup p = none ∧ (∃ m, w.lookup p.dropLast = some (.dir m)) ∧
      w1 = (w.put p (.dir (applyUmask w.umask perm))).log (.sys (.mkdir p) none) := by
  unfold mkdir at h
  cases hf : w.fault (.mkdir p) with
  | some e => simp [hf] at h
  | none =>
    cases hl : w.lookup p with
    | some n => simp [hf, hl] at h
    | none =>
      cases hd : w.lookup p.dropLast with
      | none => simp [hf, hl, hd] at h
      | some n =>
        cases n with
        | file m data => simp [hf, hl, hd] at h
        | dir m =>
          simp [hf, hl, hd] at h
          exact ⟨rfl, ⟨m, rfl⟩, h.symm⟩

theorem mkdir_err {w w1 : World} {p : Path} {perm : Nat} {e : Err}
    (h : mkdir w p perm = (some e, w1)) : w1 = w.log (.sys (.mkdir p) (some e)) := by
  unfold mkdir at h
  cases hf : w.fault (.mkdir p) with
  | some e =>
    simp [hf] at h
    obtain ⟨rfl, rfl⟩ := h
    rfl
  | none =>
    cases hl : w.lookup p with
    | some n =>
      simp [hf, hl] at h
      obtain ⟨rfl, rfl⟩ := h
      rfl
    | none =>
      cases hd : w.lookup p.dropLast with
      | none =>
        simp [hf, hl, hd] at h
        obtain ⟨rfl, rfl⟩ := h
        rfl
      | some n =>
        cases n with
        | file m data =>
          simp [hf, hl, hd] at h
          obtain ⟨rfl, rfl⟩ := h
          rfl
        | dir m =>
          simp [hf, hl, hd] at h

theorem mkdir_ext (w : World) (p : Path) (perm : Nat) : Ext w (mkdir w p perm).2 := by
  rcases h : mkdir w p perm with ⟨_ | e, w1⟩
  · obtain ⟨h1, h2, rfl⟩ := mkdir_ok h
    exact ext_trans (ext_put_new _ h1 h2) (ext_log _ _)
  · rw [mkdir_err h]
    exact ext_log _ _

/-- A successful `mkdirOrExisting` made the directory: the path was free and
its parent a directory. -/
theorem mkdirOrExisting_ok {w w1 : World} {p : Path} {perm : Nat}
    (h : mkdirOrExisting w p perm = (none, w1)) :
    (w.lookup p = none ∧ (∃ m, w.lookup p.dropLast = some (.dir m)) ∧
      w1 = (w.put p (.dir (applyUmask w.umask perm))).log (.sys (.mkdir p) none)) ∨
    ((∃ m, w.lookup p = some (.dir m)) ∧ ∀ q, w1.lookup q = w.lookup q) := by
  unfold mkdirOrExisting at h
  rcases hm : mkdir w p perm with ⟨_ | e, w2⟩
  · rw [hm] at h
    simp only [Prod.mk.injEq, true_and] at h
    subst h
    exact Or.inl (mkdir_ok hm)
  · rw [hm] at h
    have hw2 := mkdir_err hm
    subst hw2
    dsimp only at h
    rcases hs : stat (w.log (.sys (.mkdir p) (some e))) p with ⟨_ | n, w3⟩
    · rw [hs] at h
      simp at h
    · obtain ⟨hw3, hl⟩ := stat_ok_eq hs
      rw [hs] at h
      cases n with
      | file m data => simp at h
      | dir m =>
        simp only [Prod.mk.injEq, true_and] at h
        subst h
        subst hw3
        right
        exact ⟨⟨m, by simpa using hl⟩, fun q => rfl⟩

theorem mkdirOrExisting_ext (w : World) (p : Path) (perm : Nat) :
    Ext w (mkdirOrExisting w p perm).2 := by
  unfold mkdirOrExisting
  have h1 := mkdir_ext w p perm
  rcases hm : mkdir w p perm with ⟨_ | e, w2⟩
  · rw [hm] at h1
    exact h1
  · rw [hm] at h1
    dsimp only
    have h2 : Ext w2 (stat w2 p).2 := by
      rw [stat_snd]
      exact ext_log _ _
    rcases hs : stat w2 p with ⟨_ | n, w3⟩
    · rw [hs] at h2
      exact ext_trans h1 h2
    · rw [hs] at h2
      cases n <;> exact ext_trans h1 h2

theorem stat_ext (w : World) (p : Path) : Ext w (stat w p).2 := by
  rw [stat_snd]
  exact ext_log _ _

theorem mkdirAllAux_ext (perm : Nat) : ∀ (rp : List String) (w : World),
    Ext w (mkdirAllAux perm rp w).2 := by
  intro rp
  induction rp with
  | nil =>
    intro w
    unfold mkdirAllAux
    have h1 := stat_ext w []
    rcases hs : stat w [] with ⟨_ | n, w1⟩
    · rw [hs] at h1
      exact ext_trans h1 (mkdirOrExisting_ext _ _ _)
    · rw [hs] at h1
      cases n <;> exact h1
  | cons x rp ih =>
    intro w
    unfold mkdirAllAux
    have h1 := stat_ext w (x :: rp).reverse
    rcases hs : stat w (x :: rp).reverse with ⟨_ | n, w1⟩
    · rw [hs] at h1
      dsimp only
      have h2 := ih w1
      rcases hr : mkdirAllAux perm rp w1 with ⟨_ | e, w2⟩
      · rw [hr] at h2
        exact ext_trans h1 (ext_trans h2 (mkdirOrExisting_ext _ _ _))
      · rw [hr] at h2
        exact ext_trans h1 h2
    · rw [hs] at h1
      cases n <;> exact h1

/-- What a successful `mkdirAllAux` leaves: the path is a directory, and
every other path is as before or is a missing ancestor that was made. -/
theorem mkdirAllAux_ok (perm : Nat) : ∀ (rp : List String) (w w1 : World),
    mkdirAllAux perm rp w = (none, w1) →
    (∃ m, w1.lookup rp.reverse = some (.dir m)) ∧
    ∀ q, w1.lookup q = w.lookup q ∨
      (q <+: rp.reverse ∧ w.lookup q = none ∧
        w1.lookup q = some (.dir (applyUmask w.umask perm)) ∧
        ∀ q', q <+: q' → q' <+: rp.reverse → w.lookup q' = none) := by
  intro rp
  induction rp with
  | nil =>
    intro w w1 h
    unfold mkdirAllAux at h
    rcases hs : stat w [] with ⟨e | n, w2⟩
    · obtain ⟨hw2, hl, _⟩ := stat_err_eq hs
      rw [hs] at h
      dsimp only at h
      subst hw2
      rcases mkdirOrExisting_ok h with ⟨h1, ⟨m, h2⟩, _⟩ | ⟨⟨m, h1⟩, _⟩
      · simp only [List.dropLast_nil] at h2
        rw [h1] at h2
        exact absurd h2 (by simp)
      · rw [log_lookup, hl] at h1
        exact absurd h1 (by simp)
    · obtain ⟨hw2, hl⟩ := stat_ok_eq hs
      rw [hs] at h
      cases n with
      | file m data => simp at h
      | dir m =>
        simp only [Prod.mk.injEq, true_and] at h
        subst h
        subst hw2
        exact ⟨⟨m, hl⟩, fun q => Or.inl rfl⟩
  | cons x rp ih =>
    intro w w1 h
    unfold mkdirAllAux at h
    rcases hs : stat w (x :: rp).reverse with ⟨e | n, w2⟩
    · obtain ⟨hw2, hl, _⟩ := stat_err_eq hs
      rw [hs] at h
      dsimp only at h
      subst hw2
      have hext := mkdirAllAux_ext perm rp
        (w.log (.sys (.stat (x :: rp).reverse) (some .notExist)))
      rcases hr : mkdirAllAux perm rp (w.log (.sys (.stat (x :: rp).reverse) (some .notExist)))
        with ⟨_ | e, w3⟩
      · rw [hr] at h hext
        dsimp only at h
        obtain ⟨_, hfr⟩ := ih _ _ hr
        have hp : (x :: rp).reverse = rp.reverse ++ [x] := List.reverse_cons _ _
        have hw3p : w3.lookup (x :: rp).reverse = none := by
          rcases hfr (x :: rp).reverse with h1 | ⟨h1, _⟩
          · rw [h1, log_lookup]
            exact hl
          · have := h1.length_le
            simp at this
        rcases mkdirOrExisting_ok h with ⟨_, _, h3⟩ | ⟨⟨m, h1⟩, _⟩
        · subst h3
          refine ⟨⟨applyUmask w3.umask perm, by simp [put_lookup]⟩, ?_⟩
          intro q
          by_cases hq : (x :: rp).reverse = q
          · subst hq
            right
            refine ⟨List.prefix_refl _, hl, ?_, ?_⟩
            · simp only [log_lookup, put_lookup, if_true]
              rw [hext.1]
              rfl
            · intro q' h1 h2
              have : q' = (x :: rp).reverse := h2.eq_of_length_le h1.length_le
              rw [this]
              exact hl
          · rw [log_lookup, put_lookup, if_neg hq]
            rcases hfr q with h1 | ⟨h1, h2, h3, h4⟩
            · left
              rw [h1, log_lookup]
            · right
              rw [log_lookup] at h2
              refine ⟨?_, h2, h3, ?_⟩
              · rw [hp]
                exact h1.trans (List.prefix_append _ _)
              · intro q' h5 h6
                rw [hp, List.prefix_concat_iff] at h6
                rcases h6 with h6 | h6
                · rw [h6, ← hp]
                  exact hl
                · have := h4 q' h5 h6
                  rwa [log_lookup] at this
        · rw [hw3p] at h1
          exact absurd h1 (by simp)
      · rw [hr] at h
        simp at h
    · obtain ⟨hw2, hl⟩ := stat_ok_eq hs
      rw [hs] at h
      cases n with
      | file m data => simp at h
      | dir m =>
        simp only [Prod.mk.injEq, true_and] at h
        subst h
        subst hw2
        exact ⟨⟨m, hl⟩, fun q => Or.inl rfl⟩

theorem mkdirAll_ext (w : World) (p : Path) (perm : Nat) : Ext w (mkdirAll w p perm).2 :=
  mkdirAllAux_ext perm p.reverse w

theorem mkdirAll_ok {w w1 : World} {p : Path} {perm : Nat}
    (h : mkdirAll w p perm = (none, w1)) :
    (∃ m, w1.lookup p = some (.dir m)) ∧
    ∀ q, w1.lookup q = w.lookup q ∨
      (q <+: p ∧ w.lookup q = none ∧
        w1.lookup q = some (.dir (applyUmask w.umask perm)) ∧
        ∀ q', q <+: q' → q' <+: p → w.lookup q' = none) := by
  have := mkdirAllAux_ok perm p.reverse w w1 h
  simpa using this

theorem openFile_ok {w w1 : World} {p : Path} (h : openFile w p = (none, w1)) :
    w.lookup p ≠ none ∧ w1 = w.log (.sys (.openFile p) none) := by
  unfold openFile at h
  cases hf : w.fault (.openFile p) with
  | some e => simp [hf] at h
  | none =>
    cases hl : w.lookup p with
    | none => simp [hf, hl] at h
    | some n =>
      simp [hf, hl] at h
      exact ⟨by simp, h.symm⟩

theorem openFile_ext (w : World) (p : Path) : Ext w (openFile w p).2 := ext_log _ _

theorem create_ok {w w1 : World} {p : Path} (h : create w p = (none, w1)) :
    (∃ m, w1.lookup p = some (.file m [])) ∧ (∀ q, q ≠ p → w1.lookup q = w.lookup q) ∧
    (w.lookup p = none ∨ ∃ m data, w.lookup p = some (.file m data)) := by
  unfold create at h
  cases hf : w.fault (.create p) with
  | some e => simp [hf] at h
  | none =>
    cases hl : w.lookup p with
    | some n =>
      cases n with
      | dir m => simp [hf, hl] at h
      | file m data =>
        simp [hf, hl] at h
        subst h
        refine ⟨⟨m, by simp [put_lookup]⟩, ?_, Or.inr ⟨m, data, rfl⟩⟩
        intro q hq
        simp [put_lookup, Ne.symm hq]
    | none =>
      cases hd : w.lookup p.dropLast with
      | none => simp [hf, hl, hd] at h
      | some n =>
        cases n with
        | file m data => simp [hf, hl, hd] at h
        | dir m =>
          simp [hf, hl, hd] at h
          subst h
          refine ⟨⟨applyUmask w.umask 438, by simp [put_lookup]⟩, ?_, Or.inl rfl⟩
          intro q hq
          simp [put_lookup, Ne.symm hq]

theorem create_ext (w : World) (p : Path) : Ext w (create w p).2 := by
  unfold create
  cases hf : w.fault (.create p) with
  | some e => exact ext_log _ _
  | none =>
    cases hl : w.lookup p with
    | some n =>
      cases n with
      | dir m => exact ext_log _ _
      | file m data => exact ext_trans (ext_put_kind (.file m []) hl rfl) (ext_log _ _)
    | none =>
      cases hd : w.lookup p.dropLast with
      | none => exact ext_log _ _
      | some n =>
        cases n with
        | file m data => exact ext_log _ _
        | dir m => exact ext_trans (ext_put_new _ hl ⟨m, hd⟩) (ext_log _ _)

theorem ioCopy_ok {w w1 : World} {d s : Path} (h : ioCopy w d s = (none, w1)) :
    ∃ m data m1 data1, w.lookup s = some (.file m data) ∧
      w.lookup d = some (.file m1 data1) ∧ w1.lookup d = some (.file m1 data) ∧
      ∀ q, q ≠ d → w1.lookup q = w.lookup q := by
  unfold ioCopy at h
  cases hf : w.fault (.read s) with
  | some e => simp [hf] at h
  | none =>
    cases hl : w.lookup s with
    | none => simp [hf, hl] at h
    | some n =>
      cases n with
      | dir m => simp [hf, hl] at h
      | file m data =>
        simp only [hf, hl] at h
        cases hf2 : w.fault (.write d) with
        | some e => simp [hf2] at h
        | none =>
          cases hl2 : w.lookup d with
          | none => simp [hf2, hl2] at h
          | some n2 =>
            cases n2 with
            | dir m1 => simp [hf2, hl2] at h
            | file m1 data1 =>
              simp [hf2, hl2] at h
              subst h
              refine ⟨m, data, m1, data1, rfl, rfl, by simp [put_lookup], ?_⟩
              intro q hq
              simp [put_lookup, Ne.symm hq]

theorem ioCopy_ext (w : World) (d s : Path) : Ext w (ioCopy w d s).2 := by
  unfold ioCopy
  cases hf : w.fault (.read s) with
  | some e => exact ext_log _ _
  | none =>
    cases hl : w.lookup s with
    | none => exact ext_log _ _
    | some n =>
      cases n with
      | dir m => exact ext_log _ _
      | file m data =>
        dsimp only
        cases hf2 : (w.log (.sys (.read s) none)).fault (.write d) with
        | some e => exact ext_trans (ext_log _ _) (ext_log _ _)
        | none =>
          cases hl2 : (w.log (.sys (.read s) none)).lookup d with
          | none => exact ext_trans (ext_log _ _) (ext_log _ _)
          | some n2 =>
            cases n2 with
            | dir m1 => exact ext_trans (ext_log _ _) (ext_log _ _)
            | file m1 data1 =>
              exact ext_trans (ext_log _ _)
                (ext_trans (ext_put_kind (.file m1 data) hl2 rfl) (ext_log _ _))

theorem chmod_ok {w w1 : World} {p : Path} {mode : Nat} (h : chmod w p mode = (none, w1)) :
    (∀ q, q ≠ p → w1.lookup q = w.lookup q) ∧
    (∀ m data, w.lookup p = some (.file m data) → w1.lookup p = some (.file mode data)) := by
  unfold chmod at h
  cases hf : w.fault (.chmod p) with
  | some e => simp [hf] at h
  | none =>
    cases hl : w.lookup p with
    | none => simp [hf, hl] at h
    | some n =>
      cases n with
      | dir m =>
        simp [hf, hl] at h
        subst h
        refine ⟨?_, by simp⟩
        intro q hq
        simp [put_lookup, Ne.symm hq]
      | file m data =>
        simp [hf, hl] at h
        subst h
        refine ⟨?_, by simp [put_lookup]⟩
        intro q hq
        simp [put_lookup, Ne.symm hq]

theorem chmod_ext (w : World) (p : Path) (mode : Nat) : Ext w (chmod w p mode).2 := by
  unfold chmod
  cases hf : w.fault (.chmod p) with
  | some e => exact ext_log _ _
  | none =>
    cases hl : w.lookup p with
    | none => exact ext_log _ _
    | some n =>
      cases n with
      | dir m => exact ext_trans (ext_put_kind (.dir mode) hl rfl) (ext_log _ _)
      | file m data => exact ext_trans (ext_put_kind (.file mode data) hl rfl) (ext_log _ _)

/-! ### Directory listings and well-formed disks -/

theorem childName_eq_some (p k : Path) (x : String) :
    childName p k = some x ↔ k = p ++ [x] := by
  unfold childName
  constructor
  · intro h
    split at h
    · rename_i hd
      cases hk : k.getLast? with
      | none => simp [hk] at h
      | some y =>
        rw [hk] at h
        have hy : y = x := Option.some.inj h
        subst hy
        have hne : k ≠ [] := by
          intro h0
          simp [h0] at hk
        have := List.dropLast_append_getLast hne
        rw [List.getLast?_eq_getLast _ hne] at hk
        rw [← this, hd, Option.some.inj hk]
    · exact absurd h (by simp)
  · intro h
    subst h
    simp

theorem lookupDisk_ne_none (p : Path) (disk : List (Path × Node)) :
    lookupDisk p disk ≠ none ↔ ∃ n, (p, n) ∈ disk := by
  induction disk with
  | nil => simp [lookupDisk]
  | cons kv rest ih =>
    unfold lookupDisk
    by_cases h : kv.1 = p
    · rw [if_pos h]
      simp only [ne_eq, reduceCtorEq, not_false_eq_true, List.mem_cons, true_iff]
      exact ⟨kv.2, Or.inl (by rw [← h])⟩
    · rw [if_neg h, ih]
      constructor
      · rintro ⟨n, hn⟩
        exact ⟨n, List.mem_cons_of_mem _ hn⟩
      · rintro ⟨n, hn⟩
        rcases List.mem_cons.mp hn with h1 | h1
        · rw [← h1] at h
          exact absurd rfl h
        · exact ⟨n, h1⟩

theorem mem_childNames (w : World) (p : Path) (x : String) :
    x ∈ childNames w p ↔ w.lookup (p ++ [x]) ≠ none := by
  unfold childNames entryNames World.lookup
  rw [List.mem_insertionSort, List.mem_dedup, List.mem_filterMap, lookupDisk_ne_none]
  constructor
  · rintro ⟨kv, hkv, h⟩
    rw [childName_eq_some] at h
    exact ⟨kv.2, by rw [← h]; exact hkv⟩
  · rintro ⟨n, hn⟩
    exact ⟨(p ++ [x], n), hn, (childName_eq_some _ _ _).mpr rfl⟩

theorem nodup_childNames (w : World) (p : Path) : (childNames w p).Nodup :=
  (List.perm_insertionSort _ _).nodup_iff.mpr (List.nodup_dedup _)

theorem readDir_snd (w : World) (p : Path) :
    ∃ r, (readDir w p).2 = w.log (.sys (.readDir p) r) := ⟨_, rfl⟩

theorem readDir_ext (w : World) (p : Path) : Ext w (readDir w p).2 := ext_log _ _

theorem readDir_ok {w w1 : World} {p : Path} {entries : List DirEntry}
    (h : readDir w p = (.ok entries, w1)) :
    w1 = w.log (.sys (.readDir p) none) ∧ entries = (childNames w p).map (dirEntry w p) := by
  unfold readDir at h
  cases hf : w.fault (.readDir p) with
  | some e => simp [hf] at h
  | none =>
    cases hl : w.lookup p with
    | none => simp [hf, hl] at h
    | some n =>
      cases n with
      | file m data => simp [hf, hl] at h
      | dir m =>
        simp [hf, hl] at h
        exact ⟨h.2.symm, h.1.symm⟩

/-- Below a path that is missing or a file there is nothing. -/
theorem wf_nothing_below {w : World} (hwf : WellFormed w) {p : Path}
    (hp : ∀ m, w.lookup p ≠ some (.dir m)) :
    ∀ r : Path, r ≠ [] → w.lookup (p ++ r) = none := by
  intro r
  induction r using List.reverseRecOn with
  | nil => intro h; exact absurd rfl h
  | append_singleton r x ih =>
    intro _
    by_contra hne
    rw [← List.append_assoc] at hne
    obtain ⟨m, hm⟩ := hwf (p ++ r) x hne
    by_cases hr : r = []
    · subst hr
      rw [List.append_nil] at hm
      exact hp m hm
    · rw [ih hr] at hm
      exact absurd hm (by simp)

/-- Every proper ancestor of an object is a directory. -/
theorem wf_ancestor_dir {w : World} (hwf : WellFormed w) {p r : Path} (hr : r ≠ [])
    (h : w.lookup (p ++ r) ≠ none) : ∃ m, w.lookup p = some (.dir m) := by
  by_contra hc
  exact h (wf_nothing_below hwf (fun m hm => hc ⟨m, hm⟩) r hr)

/-! ### `copyFile` -/

theorem copyFile_ext (w : World) (s d : Path) : Ext w (copyFile w s d).2 := by
  unfold copyFile
  have h1 := openFile_ext w s
  rcases ho : openFile w s with ⟨_ | e, w1⟩
  · rw [ho] at h1
    dsimp only
    have h2 := create_ext w1 d
    rcases hc : create w1 d with ⟨_ | e, w2⟩
    · rw [hc] at h2
      dsimp only
      have h3 := ioCopy_ext w2 d s
      rcases hi : ioCopy w2 d s with ⟨_ | e, w3⟩
      · rw [hi] at h3
        dsimp only
        have h4 := stat_ext w3 s
        rcases hs : stat w3 s with ⟨e | n, w4⟩
        · rw [hs] at h4
          exact ext_trans h1 (ext_trans h2 (ext_trans h3 h4))
        · rw [hs] at h4
          exact ext_trans h1 (ext_trans h2 (ext_trans h3 (ext_trans h4 (chmod_ext _ _ _))))
      · rw [hi] at h3
        exact ext_trans h1 (ext_trans h2 h3)
    · rw [hc] at h2
      exact ext_trans h1 h2
  · rw [ho] at h1
    exact h1

/-- A successful `copyFile` between two different paths: the source is a
file, the destination holds its bytes and its mode, nothing else moved. -/
theorem copyFile_ok {w w1 : World} {s d : Path} (hsd : s ≠ d)
    (h : copyFile w s d = (none, w1)) :
    ∃ m data, w.lookup s = some (.file m data) ∧ w1.lookup d = some (.file m data) ∧
      ∀ q, q ≠ d → w1.lookup q = w.lookup q := by
  unfold copyFile at h
  rcases ho : openFile w s with ⟨_ | e, w2⟩
  · rw [ho] at h
    dsimp only at h
    obtain ⟨_, hw2⟩ := openFile_ok ho
    rcases hc : create w2 d with ⟨_ | e, w3⟩
    · rw [hc] at h
      dsimp only at h
      obtain ⟨_, hc2, _⟩ := create_ok hc
      rcases hi : ioCopy w3 d s with ⟨_ | e, w4⟩
      · rw [hi] at h
        dsimp only at h
        obtain ⟨m, data, m1, data1, hi1, hi2, hi3, hi4⟩ := ioCopy_ok hi
        rcases hs : stat w4 s with ⟨e | n, w5⟩
        · rw [hs] at h
          simp at h
        · rw [hs] at h
          dsimp only at h
          obtain ⟨hw5, hn⟩ := stat_ok_eq hs
          obtain ⟨hch1, hch2⟩ := chmod_ok h
          have hs3 : w3.lookup s = w.lookup s := by
            rw [hc2 s hsd, hw2, log_lookup]
          have hn2 : n = .file m data := by
            rw [hi4 s hsd, hi1] at hn
            exact (Option.some.inj hn).symm
          subst hn2
          refine ⟨m, data, by rw [← hs3, hi1], ?_, ?_⟩
          · have := hch2 m1 data (by rw [hw5, log_lookup, hi3])
            simpa [Node.mode] using this
          · intro q hq
            rw [hch1 q hq, hw5, log_lookup, hi4 q hq, hc2 q hq, hw2, log_lookup]
      · rw [hi] at h
        simp at h
    · rw [hc] at h
      simp at h
  · rw [ho] at h
    simp at h

/-! ### `copyDir`: what every run keeps -/

theorem copyEntry_ext {recur : World → Path → Path → Option (Option Err × World)}
    (hrec : ∀ w s d r w1, recur w s d = some (r, w1) → Ext w w1)
    {w w1 : World} {s d : Path} {e : DirEntry} {r : Option Err}
    (h : copyEntry recur w s d e = some (r, w1)) : Ext w w1 := by
  unfold copyEntry at h
  split at h
  · exact hrec _ _ _ _ _ h
  · have := copyFile_ext w (s ++ [e.name]) (d ++ [e.name])
    simp only [Option.some.injEq] at h
    rw [h] at this
    exact this

theorem copyDirLoop_ext {recur : World → Path → Path → Option (Option Err × World)}
    (hrec : ∀ w s d r w1, recur w s d = some (r, w1) → Ext w w1) (s d : Path) :
    ∀ (entries : List DirEntry) (w w1 : World) (r : Option Err),
      copyDirLoop recur entries w s d = some (r, w1) → Ext w w1 := by
  intro entries
  induction entries with
  | nil =>
    intro w w1 r h
    simp only [copyDirLoop, Option.some.injEq, Prod.mk.injEq] at h
    rw [← h.2]
    exact ext_refl w
  | cons e rest ih =>
    intro w w1 r h
    unfold copyDirLoop at h
    rcases hc : copyEntry recur w s d e with _ | ⟨_ | err, w2⟩
    · rw [hc] at h
      simp at h
    · rw [hc] at h
      exact ext_trans (copyEntry_ext hrec hc) (ih _ _ _ h)
    · rw [hc] at h
      simp only [Option.some.injEq, Prod.mk.injEq] at h
      rw [← h.2]
      exact copyEntry_ext hrec hc

theorem copyDir_ext : ∀ (n : Nat) (w : World) (s d : Path) (r : Option Err) (w1 : World),
    copyDir n w s d = some (r, w1) → Ext w w1 := by
  intro n
  induction n with
  | zero =>
    intro w s d r w1 h
    simp [copyDir] at h
  | succ n ih =>
    intro w s d r w1 h
    unfold copyDir at h
    have h1 := stat_ext w s
    rcases hs : stat w s with ⟨e | si, w2⟩
    · rw [hs] at h h1
      simp only [Option.some.injEq, Prod.mk.injEq] at h
      rw [← h.2]
      exact h1
    · rw [hs] at h h1
      dsimp only at h
      split at h
      · simp only [Option.some.injEq, Prod.mk.injEq] at h
        rw [← h.2]
        exact h1
      · have h2 := mkdirAll_ext w2 d si.mode
        rcases hm : mkdirAll w2 d si.mode with ⟨_ | e, w3⟩
        · rw [hm] at h h2
          dsimp only at h
          have h3 := readDir_ext w3 s
          rcases hr : readDir w3 s with ⟨e | entries, w4⟩
          · rw [hr] at h h3
            simp only [Option.some.injEq, Prod.mk.injEq] at h
            rw [← h.2]
            exact ext_trans h1 (ext_trans h2 h3)
          · rw [hr] at h h3
            dsimp only at h
            exact ext_trans h1 (ext_trans h2 (ext_trans h3 (copyDirLoop_ext ih s d _ _ _ _ h)))
        · rw [hm] at h h2
          simp only [Option.some.injEq, Prod.mk.injEq] at h
          rw [← h.2]
          exact ext_trans h1 h2

/-- A loop that ends well ran every one of its entries well, each from a
world that extends the one the loop started from. -/
theorem copyDirLoop_member {recur : World → Path → Path → Option (Option Err × World)}
    (hrec : ∀ w s d r w1, recur w s d = some (r, w1) → Ext w w1) (s d : Path) :
    ∀ (entries : List DirEntry) (w w1 : World),
      copyDirLoop recur entries w s d = some (none, w1) →
      ∀ e ∈ entries, ∃ wi wj, Ext w wi ∧ copyEntry recur wi s d e = some (none, wj) := by
  intro entries
  induction entries with
  | nil =>
    intro w w1 _ e he
    simp at he
  | cons e0 rest ih =>
    intro w w1 h e he
    unfold copyDirLoop at h
    rcases hc : copyEntry recur w s d e0 with _ | ⟨_ | err, w2⟩
    · rw [hc] at h
      simp at h
    · rw [hc] at h
      rcases List.mem_cons.mp he with h1 | h1
      · subst h1
        exact ⟨w, w2, ext_refl w, hc⟩
      · obtain ⟨wi, wj, hx, hy⟩ := ih _ _ h e h1
        exact ⟨wi, wj, ext_trans (copyEntry_ext hrec hc) hx, hy⟩
    · rw [hc] at h
      simp at h

/-- A copy of a directory into itself never ends well. -/
theorem copyDir_nested : ∀ (n : Nat) (w : World) (s r : Path) (w1 : World),
    WellFormed w → r ≠ [] → copyDir n w s (s ++ r) ≠ some (none, w1) := by
  intro n
  induction n with
  | zero =>
    intro w s r w1 _ _ h
    simp [copyDir] at h
  | succ n ih =>
    intro w s r w1 hwf hr h
    unfold copyDir at h
    rcases hs : stat w s with ⟨e | si, w2⟩
    · rw [hs] at h
      simp at h
    · rw [hs] at h
      obtain ⟨hw2, _⟩ := stat_ok_eq hs
      dsimp only at h
      split at h
      · simp at h
      · have h2 := mkdirAll_ext w2 (s ++ r) si.mode
        rcases hm : mkdirAll w2 (s ++ r) si.mode with ⟨_ | e, w3⟩
        · rw [hm] at h h2
          dsimp only at h
          obtain ⟨⟨m, hdir⟩, _⟩ := mkdirAll_ok hm
          have hwf3 : WellFormed w3 := h2.2.2 (by rw [hw2]; exact hwf)
          rcases hr2 : readDir w3 s with ⟨e | entries, w4⟩
          · rw [hr2] at h
            simp at h
          · rw [hr2] at h
            dsimp only at h
            obtain ⟨hw4, hent⟩ := readDir_ok hr2
            cases r with
            | nil => exact absurd rfl hr
            | cons x r1 =>
              have hx : ∃ mx, w3.lookup (s ++ [x]) = some (.dir mx) := by
                by_cases hr1 : r1 = []
                · subst hr1
                  exact ⟨m, hdir⟩
                · apply wf_ancestor_dir hwf3 hr1
                  rw [List.append_assoc, List.singleton_append, hdir]
                  simp
              obtain ⟨mx, hmx⟩ := hx
              have hmem : dirEntry w3 s x ∈ entries := by
                rw [hent]
                apply List.mem_map_of_mem
                rw [mem_childNames, hmx]
                simp
              obtain ⟨wi, wj, hext, hce⟩ :=
                copyDirLoop_member (copyDir_ext n) s (s ++ x :: r1) entries w4 w1 h _ hmem
              have hwfi : WellFormed wi := hext.2.2 (by rw [hw4]; exact hwf3)
              unfold copyEntry at hce
              have hd : (dirEntry w3 s x).isDir = true := by
                simp [dirEntry, hmx, Node.isDir]
              rw [if_pos hd] at hce
              have hn : (dirEntry w3 s x).name = x := rfl
              rw [hn] at hce
              have : s ++ x :: r1 ++ [x] = (s ++ [x]) ++ (r1 ++ [x]) := by simp
              rw [this] at hce
              exact ih wi (s ++ [x]) (r1 ++ [x]) wj hwfi (by simp) hce
        · rw [hm] at h
          simp at h

/-! ### `copyDir`: what a run that ends well leaves -/

theorem disjoint_append {s d : Path} (h1 : ¬ s <+: d) (h2 : ¬ d <+: s) (a b : Path) :
    ¬ (d ++ a) <+: (s ++ b) := by
  intro h
  have hd : d <+: s ++ b := (List.prefix_append d a).trans h
  rcases List.prefix_or_prefix_of_prefix hd (List.prefix_append s b) with h3 | h3
  · exact h2 h3
  · exact h1 h3

theorem child_prefix_iff (d : Path) (x y : String) (r : Path) :
    (d ++ [x]) <+: (d ++ y :: r) ↔ x = y := by
  rw [List.prefix_append_right_inj, List.cons_prefix_cons]
  simp

theorem not_prefix_longer (d : Path) (x : String) (r : Path) : ¬ (d ++ x :: r) <+: d := by
  intro h
  have := h.length_le
  simp at this

theorem append_singleton_ne {s d : Path} (h : ¬ s <+: d) (x : String) :
    s ++ [x] ≠ d ++ [x] := by
  intro he
  have : s = d := List.append_cancel_right he
  exact h (this ▸ List.prefix_refl s)

/-- The loop of `copyDir`, from a world where the destination is a directory
and the entries to copy have nothing yet on the destination side. -/
theorem copyDirLoop_ok {recur : World → Path → Path → Option (Option Err × World)}
    (hext : ∀ w s d r w1, recur w s d = some (r, w1) → Ext w w1) (hM : RecurOK recur)
    (s d : Path) (h1 : ¬ s <+: d) (h2 : ¬ d <+: s) :
    ∀ (entries : List DirEntry) (w w1 : World),
      copyDirLoop recur entries w s d = some (none, w1) →
      WellFormed w → (∃ m, w.lookup d = some (.dir m)) →
      (entries.map DirEntry.name).Nodup →
      (∀ e ∈ entries, e.isDir = (match w.lookup (s ++ [e.name]) with
          | some n => n.isDir
          | none => false) ∧
        w.lookup (s ++ [e.name]) ≠ none ∧ ∀ r, w.lookup (d ++ e.name :: r) = none) →
      (∀ q, (∀ e ∈ entries, ¬ (d ++ [e.name]) <+: q) → w1.lookup q = w.lookup q) ∧
      (∀ e ∈ entries, ∀ r,
        w1.lookup (d ++ e.name :: r) = copiedNode w.umask (w.lookup (s ++ e.name :: r))) := by
  intro entries
  induction entries with
  | nil =>
    intro w w1 h _ _ _ _
    simp only [copyDirLoop, Option.some.injEq, Prod.mk.injEq, true_and] at h
    subst h
    exact ⟨fun q _ => rfl, fun e he => absurd he (by simp)⟩
  | cons e rest ih =>
    intro w w1 h hwf hdir hnd hents
    unfold copyDirLoop at h
    rcases hc : copyEntry recur w s d e with _ | ⟨_ | err, w2⟩
    · rw [hc] at h
      simp at h
    · rw [hc] at h
      dsimp only at h
      have hx2 := copyEntry_ext hext hc
      obtain ⟨hedir, hesrc, hefresh⟩ := hents e (by simp)
      -- what the step for `e` did
      have step : (∀ q, ¬ (d ++ [e.name]) <+: q → w2.lookup q = w.lookup q) ∧
          (∀ r, w2.lookup (d ++ e.name :: r)
            = copiedNode w.umask (w.lookup (s ++ e.name :: r))) := by
        unfold copyEntry at hc
        by_cases hd : e.isDir = true
        · rw [if_pos hd] at hc
          have hs1 : ¬ (s ++ [e.name]) <+: (d ++ [e.name]) :=
            disjoint_append h2 h1 [e.name] [e.name]
          have hs2 : ¬ (d ++ [e.name]) <+: (s ++ [e.name]) :=
            disjoint_append h1 h2 [e.name] [e.name]
          obtain ⟨m, hm⟩ := hdir
          have := hM w (s ++ [e.name]) (d ++ [e.name]) w2 hc hwf hs1 hs2
            (fun r => by simpa using hefresh r) ⟨d, e.name, m, rfl, hm⟩
          refine ⟨this.1, fun r => ?_⟩
          have h3 := this.2 r
          simpa using h3
        · rw [if_neg hd] at hc
          simp only [Option.some.injEq] at hc
          obtain ⟨m, data, hf1, hf2, hf3⟩ := copyFile_ok (append_singleton_ne h1 e.name) hc
          refine ⟨fun q hq => hf3 q (fun hqe => hq (hqe ▸ List.prefix_refl _)), fun r => ?_⟩
          cases r with
          | nil => rw [hf2, hf1]; rfl
          | cons y r =>
            have hne : d ++ e.name :: y :: r ≠ d ++ [e.name] := by
              intro he
              have := congrArg List.length he
              simp at this
            rw [hf3 _ hne, hefresh]
            have hnb := wf_nothing_below hwf (p := s ++ [e.name])
              (fun m1 hm1 => by rw [hf1] at hm1; simp at hm1) (y :: r) (by simp)
            rw [List.append_assoc, List.singleton_append] at hnb
            rw [hnb]
            rfl
      obtain ⟨stepF, stepC⟩ := step
      have hnd2 : e.name ∉ rest.map DirEntry.name ∧ (rest.map DirEntry.name).Nodup := by
        simpa using hnd
      have hsrc : ∀ b, w2.lookup (s ++ b) = w.lookup (s ++ b) :=
        fun b => stepF _ (disjoint_append h1 h2 [e.name] b)
      have hrest := ih w2 w1 h (hx2.2.2 hwf)
        (by
          obtain ⟨m, hm⟩ := hdir
          refine ⟨m, ?_⟩
          rw [stepF d (not_prefix_longer d e.name []), hm])
        hnd2.2
        (by
          intro e1 he1
          obtain ⟨a1, a2, a3⟩ := hents e1 (List.mem_cons_of_mem _ he1)
          have hne : e.name ≠ e1.name := by
            intro heq
            exact hnd2.1 (heq ▸ List.mem_map_of_mem _ he1)
          refine ⟨?_, ?_, ?_⟩
          · rw [hsrc]
            exact a1
          · rw [hsrc]
            exact a2
          · intro r
            rw [stepF _ (by rw [child_prefix_iff]; exact hne)]
            exact a3 r)
      obtain ⟨restF, restC⟩ := hrest
      refine ⟨?_, ?_⟩
      · intro q hq
        rw [restF q (fun e1 he1 => hq e1 (List.mem_cons_of_mem _ he1))]
        exact stepF q (hq e (by simp))
      · intro e1 he1 r
        rcases List.mem_cons.mp he1 with heq | hmem
        · subst heq
          rw [restF _ (fun e2 he2 => by
            rw [child_prefix_iff]
            intro heq
            exact hnd2.1 (heq ▸ List.mem_map_of_mem _ he2))]
          exact stepC r
        · rw [restC e1 hmem r, hx2.1, hsrc]
    · rw [hc] at h
      simp at h

theorem dirEntry_names (w : World) (s : Path) (names : List String) :
    (names.map (dirEntry w s)).map DirEntry.name = names := by
  induction names with
  | nil => rfl
  | cons x rest ih =>
    rw [List.map_cons, List.map_cons, ih]
    rfl

/-- One call of `copyDir` that ends well, given what the recursive calls do:
the source is a directory, the destination keeps its node if it had one and
is made with the masked mode of the source otherwise, what is beneath it is the
copy of what is beneath the source, and outside the destination only missing
ancestors of it were made. -/
theorem copyDir_step (n : Nat) (hM : RecurOK (copyDir n)) (w : World) (s d : Path) (w1 : World)
    (h : copyDir (n + 1) w s d = some (none, w1)) (hwf : WellFormed w)
    (h1 : ¬ s <+: d) (h2 : ¬ d <+: s) (hfresh : ∀ r, r ≠ [] → w.lookup (d ++ r) = none) :
    ∃ ms, w.lookup s = some (.dir ms) ∧
      (w1.lookup d = match w.lookup d with
        | none => some (.dir (applyUmask w.umask ms))
        | some nd => some nd) ∧
      (∀ r, r ≠ [] → w1.lookup (d ++ r) = copiedNode w.umask (w.lookup (s ++ r))) ∧
      (∀ q, ¬ d <+: q → w1.lookup q = w.lookup q ∨
        (q <+: d ∧ w.lookup q = none ∧ ∀ q', q <+: q' → q' <+: d → w.lookup q' = none)) := by
  unfold copyDir at h
  rcases hs : stat w s with ⟨e | si, w2⟩
  · rw [hs] at h
    simp at h
  · rw [hs] at h
    obtain ⟨hw2, hsi⟩ := stat_ok_eq hs
    dsimp only at h
    cases si with
    | file m data => simp [Node.isDir] at h
    | dir ms =>
      simp only [Node.isDir, Bool.not_true, Bool.false_eq_true, if_false, Node.mode] at h
      have hx2 := mkdirAll_ext w2 d ms
      rcases hm : mkdirAll w2 d ms with ⟨_ | e, w3⟩
      · rw [hm] at h hx2
        dsimp only at h
        obtain ⟨⟨md, hdir⟩, hmk⟩ := mkdirAll_ok hm
        have hl2 : ∀ q, w2.lookup q = w.lookup q := fun q => by rw [hw2, log_lookup]
        have hu2 : w2.umask = w.umask := by rw [hw2, log_umask]
        have hwf3 : WellFormed w3 := hx2.2.2 (by rw [hw2]; exact hwf)
        rcases hr : readDir w3 s with ⟨e | entries, w4⟩
        · rw [hr] at h
          simp at h
        · rw [hr] at h
          dsimp only at h
          obtain ⟨hw4, hent⟩ := readDir_ok hr
          have hl4 : ∀ q, w4.lookup q = w3.lookup q := fun q => by rw [hw4, log_lookup]
          have hu4 : w4.umask = w.umask := by rw [hw4, log_umask, hx2.1, hu2]
          -- the source side and the fresh destination side after `MkdirAll`
          have hsrc3 : ∀ b, w3.lookup (s ++ b) = w.lookup (s ++ b) := by
            intro b
            rcases hmk (s ++ b) with h3 | ⟨h3, _⟩
            · rw [h3, hl2]
            · exact absurd ((List.prefix_append s b).trans h3) h1
          have hdst3 : ∀ x r, w3.lookup (d ++ x :: r) = none := by
            intro x r
            rcases hmk (d ++ x :: r) with h3 | ⟨h3, _⟩
            · rw [h3, hl2]
              exact hfresh (x :: r) (by simp)
            · exact absurd h3 (not_prefix_longer d x r)
          have hloop := copyDirLoop_ok (copyDir_ext n) hM s d h1 h2 entries w4 w1 h
            (by rw [hw4]; exact hwf3) ⟨md, by rw [hl4, hdir]⟩
            (by rw [hent, dirEntry_names]; exact nodup_childNames w3 s)
            (by
              intro e he
              rw [hent, List.mem_map] at he
              obtain ⟨x, hx, rfl⟩ := he
              refine ⟨?_, ?_, ?_⟩
              · rw [hl4]
                rfl
              · rw [hl4]
                exact (mem_childNames w3 s x).mp hx
              · intro r
                rw [hl4]
                exact hdst3 x r)
          obtain ⟨loopF, loopC⟩ := hloop
          have hout : ∀ q, ¬ d <+: q → w1.lookup q = w3.lookup q := by
            intro q hq
            rw [loopF q (fun e _ hp => hq ((List.prefix_append d _).trans hp)), hl4]
          refine ⟨ms, hsi, ?_, ?_, ?_⟩
          · rw [loopF d (fun e _ => not_prefix_longer d e.name []), hl4]
            rcases hmk d with h3 | ⟨_, h3, h4, _⟩
            · rw [hl2] at h3
              rw [h3]
              rw [h3] at hdir
              rw [hdir]
            · rw [hl2] at h3
              rw [h4, h3, hu2]
          · intro r hr0
            cases r with
            | nil => exact absurd rfl hr0
            | cons x r =>
              by_cases hx : x ∈ childNames w3 s
              · have hmem : dirEntry w3 s x ∈ entries := by
                  rw [hent]
                  exact List.mem_map_of_mem _ hx
                have := loopC _ hmem r
                rw [hu4, hl4] at this
                have hn : (dirEntry w3 s x).name = x := rfl
                rw [hn] at this
                rw [this, hsrc3]
              · rw [mem_childNames] at hx
                have hx0 : w3.lookup (s ++ [x]) = none := by
                  by_contra hc
                  exact hx hc
                rw [hsrc3] at hx0
                have hnone : w.lookup (s ++ x :: r) = none := by
                  by_cases hr1 : r = []
                  · subst hr1
                    exact hx0
                  · have := wf_nothing_below hwf (p := s ++ [x])
                      (fun m1 hm1 => by rw [hx0] at hm1; simp at hm1) r hr1
                    simpa using this
                rw [hnone]
                have hframe : w1.lookup (d ++ x :: r) = w4.lookup (d ++ x :: r) := by
                  apply loopF
                  intro e he
                  rw [child_prefix_iff]
                  intro heq
                  rw [hent, List.mem_map] at he
                  obtain ⟨y, hy, rfl⟩ := he
                  have hn : (dirEntry w3 s y).name = y := rfl
                  rw [hn] at heq
                  subst heq
                  rw [mem_childNames, hsrc3] at hy
                  exact hy hx0
                rw [hframe, hl4, hdst3]
                rfl
          · intro q hq
            rw [hout q hq]
            rcases hmk q with h3 | ⟨h3, h4, _, h6⟩
            · left
              rw [h3, hl2]
            · right
              rw [hl2] at h4
              exact ⟨h3, h4, fun q' a b => by rw [← hl2]; exact h6 q' a b⟩
      · rw [hm] at h
        simp at h

/-- Every bound on the recursion gives a `copyDir` that does what the loop
asks of the recursive call. -/
theorem copyDir_recurOK : ∀ n : Nat, RecurOK (copyDir n) := by
  intro n
  induction n with
  | zero =>
    intro w s d w1 h
    simp [copyDir] at h
  | succ n ih =>
    intro w s d w1 h hwf h1 h2 hfresh hpar
    obtain ⟨ms, hs, hd, hc, hf⟩ :=
      copyDir_step n ih w s d w1 h hwf h1 h2 (fun r _ => hfresh r)
    obtain ⟨d0, x, m, hd0, hm⟩ := hpar
    refine ⟨?_, ?_⟩
    · intro q hq
      rcases hf q hq with h3 | ⟨h3, _, h5⟩
      · exact h3
      · exfalso
        rw [hd0, List.prefix_concat_iff] at h3
        rcases h3 with h3 | h3
        · exact hq (by rw [hd0, h3])
        · have := h5 d0 h3 (by rw [hd0]; exact List.prefix_append _ _)
          rw [hm] at this
          simp at this
    · intro r
      by_cases hr : r = []
      · subst hr
        have h0 := hfresh []
        simp only [List.append_nil] at h0 ⊢
        rw [hd, h0, hs]
        rfl
      · exact hc r hr

/-! ### What a run of `copyDir` can touch, however it ends -/

theorem mkdir_frame (w : World) (p : Path) (perm : Nat) (q : Path) (hq : q ≠ p) :
    (mkdir w p perm).2.lookup q = w.lookup q := by
  rcases h : mkdir w p perm with ⟨_ | e, w1⟩
  · obtain ⟨_, _, rfl⟩ := mkdir_ok h
    simp [put_lookup, Ne.symm hq]
  · rw [mkdir_err h]
    rfl

theorem mkdirOrExisting_frame (w : World) (p : Path) (perm : Nat) (q : Path) (hq : q ≠ p) :
    (mkdirOrExisting w p perm).2.lookup q = w.lookup q := by
  unfold mkdirOrExisting
  have h1 := mkdir_frame w p perm q hq
  rcases hm : mkdir w p perm with ⟨_ | e, w2⟩
  · rw [hm] at h1
    exact h1
  · rw [hm] at h1
    dsimp only
    have h2 : (stat w2 p).2.lookup q = w2.lookup q := by
      rw [stat_snd]
      rfl
    rcases hs : stat w2 p with ⟨_ | n, w3⟩
    · rw [hs] at h2
      exact h2.trans h1
    · rw [hs] at h2
      cases n <;> exact h2.trans h1

/-- On a path that exists `mkdirAllAux` changes no node. -/
theorem mkdirAllAux_existing (perm : Nat) (rp : List String) (w : World) {n : Node}
    (h : w.lookup rp.reverse = some n) (q : Path) :
    (mkdirAllAux perm rp w).2.lookup q = w.lookup q := by
  cases rp with
  | nil =>
    unfold mkdirAllAux
    rw [stat_of_some (by simpa using h)]
    cases n <;> rfl
  | cons x rp =>
    unfold mkdirAllAux
    rw [stat_of_some h]
    cases n <;> rfl

/-- A destination is anchored when it exists or its parent is a directory:
`MkdirAll` then makes no ancestor of it. -/
theorem mkdirAll_frame (w : World) (d : Path) (perm : Nat)
    (ha : w.lookup d ≠ none ∨ ∃ d0 x m, d = d0 ++ [x] ∧ w.lookup d0 = some (.dir m))
    (q : Path) (hq : q ≠ d) : (mkdirAll w d perm).2.lookup q = w.lookup q := by
  unfold mkdirAll
  cases hl : w.lookup d with
  | some n => exact mkdirAllAux_existing perm d.reverse w (by simpa using hl) q
  | none =>
    rcases ha with ha | ⟨d0, x, m, hd, hm⟩
    · exact absurd hl ha
    · subst hd
      rw [List.reverse_append, List.reverse_singleton, List.singleton_append]
      unfold mkdirAllAux
      have hrev : (x :: d0.reverse).reverse = d0 ++ [x] := by simp
      rw [hrev, stat_of_none hl]
      dsimp only
      have h1 := mkdirAllAux_existing perm d0.reverse
        (w.log (.sys (.stat (d0 ++ [x])) (some .notExist))) (n := .dir m)
        (by simpa using hm)
      rcases hr : mkdirAllAux perm d0.reverse
          (w.log (.sys (.stat (d0 ++ [x])) (some .notExist))) with ⟨_ | e, w2⟩
      · rw [hr] at h1
        dsimp only
        rw [mkdirOrExisting_frame _ _ _ _ hq, h1]
        rfl
      · rw [hr] at h1
        dsimp only
        rw [h1]
        rfl

theorem create_frame (w : World) (p q : Path) (hq : q ≠ p) :
    (create w p).2.lookup q = w.lookup q := by
  unfold create
  cases w.fault (.create p) with
  | some e => rfl
  | none =>
    cases w.lookup p with
    | some n => cases n <;> simp [put_lookup, Ne.symm hq]
    | none =>
      cases w.lookup p.dropLast with
      | none => rfl
      | some n => cases n <;> simp [put_lookup, Ne.symm hq]

theorem ioCopy_frame (w : World) (d s q : Path) (hq : q ≠ d) :
    (ioCopy w d s).2.lookup q = w.lookup q := by
  unfold ioCopy
  cases w.fault (.read s) with
  | some e => rfl
  | none =>
    cases w.lookup s with
    | none => rfl
    | some n =>
      cases n with
      | dir m => rfl
      | file m data =>
        dsimp only
        cases (w.log (.sys (.read s) none)).fault (.write d) with
        | some e => rfl
        | none =>
          cases (w.log (.sys (.read s) none)).lookup d with
          | none => rfl
          | some n2 => cases n2 <;> simp [put_lookup, Ne.symm hq]

theorem chmod_frame (w : World) (p : Path) (mode : Nat) (q : Path) (hq : q ≠ p) :
    (chmod w p mode).2.lookup q = w.lookup q := by
  unfold chmod
  cases w.fault (.chmod p) with
  | some e => rfl
  | none =>
    cases w.lookup p with
    | none => rfl
    | some n => cases n <;> simp [put_lookup, Ne.symm hq]

theorem copyFile_frame (w : World) (s d q : Path) (hq : q ≠ d) :
    (copyFile w s d).2.lookup q = w.lookup q := by
  unfold copyFile
  have h1 : (openFile w s).2.lookup q = w.lookup q := rfl
  rcases ho : openFile w s with ⟨_ | e, w1⟩
  · rw [ho] at h1
    dsimp only
    have h2 := create_frame w1 d q hq
    rcases hc : create w1 d with ⟨_ | e, w2⟩
    · rw [hc] at h2
      dsimp only
      have h3 := ioCopy_frame w2 d s q hq
      rcases hi : ioCopy w2 d s with ⟨_ | e, w3⟩
      · rw [hi] at h3
        dsimp only
        have h4 : (stat w3 s).2.lookup q = w3.lookup q := by
          rw [stat_snd]
          rfl
        rcases hs : stat w3 s with ⟨e | n, w4⟩
        · rw [hs] at h4
          exact h4.trans (h3.trans (h2.trans h1))
        · rw [hs] at h4
          dsimp only
          rw [chmod_frame _ _ _ _ hq]
          exact h4.trans (h3.trans (h2.trans h1))
      · rw [hi] at h3
        exact h3.trans (h2.trans h1)
    · rw [hc] at h2
      exact h2.trans h1
  · rw [ho] at h1
    exact h1

/-- The loop touches nothing outside the destinations of its entries. -/
theorem copyDirLoop_frame {recur : World → Path → Path → Option (Option Err × World)}
    (hrec : ∀ w s d r w1, recur w s d = some (r, w1) →
      (w.lookup d ≠ none ∨ ∃ d0 x m, d = d0 ++ [x] ∧ w.lookup d0 = some (.dir m)) →
      ∀ q, ¬ d <+: q → w1.lookup q = w.lookup q)
    (s d : Path) :
    ∀ (entries : List DirEntry) (w w1 : World) (r : Option Err),
      copyDirLoop recur entries w s d = some (r, w1) →
      (∃ m, w.lookup d = some (.dir m)) →
      ∀ q, (∀ e ∈ entries, ¬ (d ++ [e.name]) <+: q) → w1.lookup q = w.lookup q := by
  intro entries
  induction entries with
  | nil =>
    intro w w1 r h _ q _
    simp only [copyDirLoop, Option.some.injEq, Prod.mk.injEq] at h
    rw [← h.2]
  | cons e rest ih =>
    intro w w1 r h hdir q hq
    have step : ∀ w2 r2, copyEntry recur w s d e = some (r2, w2) →
        ∀ q, ¬ (d ++ [e.name]) <+: q → w2.lookup q = w.lookup q := by
      intro w2 r2 hc q hq
      unfold copyEntry at hc
      split at hc
      · obtain ⟨m, hm⟩ := hdir
        exact hrec _ _ _ _ _ hc (Or.inr ⟨d, e.name, m, rfl, hm⟩) q hq
      · simp only [Option.some.injEq] at hc
        have := copyFile_frame w (s ++ [e.name]) (d ++ [e.name]) q
          (fun hqe => hq (hqe ▸ List.prefix_refl _))
        rw [hc] at this
        exact this
    unfold copyDirLoop at h
    rcases hc : copyEntry recur w s d e with _ | ⟨_ | err, w2⟩
    · rw [hc] at h
      simp at h
    · rw [hc] at h
      dsimp only at h
      have hs := step w2 none hc
      obtain ⟨m, hm⟩ := hdir
      rw [ih w2 w1 r h ⟨m, by rw [hs d (not_prefix_longer d e.name []), hm]⟩ q
        (fun e1 he1 => hq e1 (List.mem_cons_of_mem _ he1))]
      exact hs q (hq e (by simp))
    · rw [hc] at h
      simp only [Option.some.injEq, Prod.mk.injEq] at h
      rw [← h.2]
      exact step w2 (some err) hc q (hq e (by simp))

/-- However it ends, a `copyDir` to an anchored destination leaves every
path outside the destination as it was. -/
theorem copyDir_frame : ∀ (n : Nat) (w : World) (s d : Path) (r : Option Err) (w1 : World),
    copyDir n w s d = some (r, w1) →
    (w.lookup d ≠ none ∨ ∃ d0 x m, d = d0 ++ [x] ∧ w.lookup d0 = some (.dir m)) →
    ∀ q, ¬ d <+: q → w1.lookup q = w.lookup q := by
  intro n
  induction n with
  | zero =>
    intro w s d r w1 h
    simp [copyDir] at h
  | succ n ih =>
    intro w s d r w1 h ha q hq
    have hqd : q ≠ d := fun hqe => hq (hqe ▸ List.prefix_refl _)
    unfold copyDir at h
    have h1 : (stat w s).2.lookup q = w.lookup q := by
      rw [stat_snd]
      rfl
    rcases hs : stat w s with ⟨e | si, w2⟩
    · rw [hs] at h h1
      simp only [Option.some.injEq, Prod.mk.injEq] at h
      rw [← h.2]
      exact h1
    · rw [hs] at h h1
      obtain ⟨hw2, _⟩ := stat_ok_eq hs
      dsimp only at h
      split at h
      · simp only [Option.some.injEq, Prod.mk.injEq] at h
        rw [← h.2]
        exact h1
      · have h2 := mkdirAll_frame w2 d si.mode (by rw [hw2]; exact ha) q hqd
        rcases hm : mkdirAll w2 d si.mode with ⟨_ | e, w3⟩
        · rw [hm] at h h2
          dsimp only at h
          obtain ⟨⟨md, hdir⟩, _⟩ := mkdirAll_ok hm
          rcases hr : readDir w3 s with ⟨e | entries, w4⟩
          · rw [hr] at h
            obtain ⟨r0, hr0⟩ := readDir_snd w3 s
            rw [hr] at hr0
            simp only [Option.some.injEq, Prod.mk.injEq] at h
            have hr1 : w4 = w3.log (.sys (.readDir s) r0) := hr0
            rw [← h.2, hr1, log_lookup]
            exact h2.trans h1
          · rw [hr] at h
            dsimp only at h
            obtain ⟨hw4, _⟩ := readDir_ok hr
            rw [copyDirLoop_frame ih s d entries w4 w1 r h ⟨md, by rw [hw4, log_lookup, hdir]⟩ q
              (fun e _ hp => hq ((List.prefix_append d _).trans hp)), hw4, log_lookup]
            exact h2.trans h1
        · rw [hm] at h h2
          simp only [Option.some.injEq, Prod.mk.injEq] at h
          rw [← h.2]
          exact h2.trans h1

/-! ### The bound on the recursion -/

theorem copyDir_succ (n : Nat) (w : World) (s d : Path) :
    copyDir (n + 1) w s d =
      match stat w s with
      | (.error e, w) => some (some e, w)
      | (.ok si, w) =>
        if !si.isDir then some (some .sourceNotDir, w)
        else
          match mkdirAll w d si.mode with
          | (some e, w) => some (some e, w)
          | (none, w) =>
            match readDir w s with
            | (.error e, w) => some (some e, w)
            | (.ok entries, w) => copyDirLoop (copyDir n) entries w s d := rfl

theorem copyDirLoop_cons (recur : World → Path → Path → Option (Option Err × World))
    (e : DirEntry) (rest : List DirEntry) (w : World) (s d : Path) :
    copyDirLoop recur (e :: rest) w s d =
      match copyEntry recur w s d e with
      | none => none
      | some (some err, w1) => some (some err, w1)
      | some (none, w1) => copyDirLoop recur rest w1 s d := rfl

theorem copyDirLoop_mono {recur recur1 : World → Path → Path → Option (Option Err × World)}
    (h : ∀ w s d x, recur w s d = some x → recur1 w s d = some x) (s d : Path) :
    ∀ (entries : List DirEntry) (w : World) (x : Option Err × World),
      copyDirLoop recur entries w s d = some x → copyDirLoop recur1 entries w s d = some x := by
  intro entries
  induction entries with
  | nil => intro w x hx; exact hx
  | cons e rest ih =>
    intro w x hx
    rw [copyDirLoop_cons] at hx ⊢
    rcases hc : copyEntry recur w s d e with _ | ⟨_ | err, w2⟩
    · rw [hc] at hx
      simp at hx
    · have hc1 : copyEntry recur1 w s d e = some (none, w2) := by
        unfold copyEntry at hc ⊢
        split
        · rename_i hd
          rw [if_pos hd] at hc
          exact h _ _ _ _ hc
        · rename_i hd
          rw [if_neg hd] at hc
          exact hc
      rw [hc] at hx
      rw [hc1]
      exact ih w2 x hx
    · have hc1 : copyEntry recur1 w s d e = some (some err, w2) := by
        unfold copyEntry at hc ⊢
        split
        · rename_i hd
          rw [if_pos hd] at hc
          exact h _ _ _ _ hc
        · rename_i hd
          rw [if_neg hd] at hc
          exact hc
      rw [hc] at hx
      rw [hc1]
      exact hx

/-- A larger bound gives the same run. -/
theorem copyDir_mono : ∀ (n : Nat) (w : World) (s d : Path) (x : Option Err × World),
    copyDir n w s d = some x → copyDir (n + 1) w s d = some x := by
  intro n
  induction n with
  | zero =>
    intro w s d x h
    simp [copyDir] at h
  | succ n ih =>
    intro w s d x h
    rw [copyDir_succ] at h ⊢
    rcases hs : stat w s with ⟨e | si, w2⟩
    · rw [hs] at h
      exact h
    · rw [hs] at h
      dsimp only at h ⊢
      split
      · rename_i hd
        rw [if_pos hd] at h
        exact h
      · rename_i hd
        rw [if_neg hd] at h
        rcases hm : mkdirAll w2 d si.mode with ⟨_ | e, w3⟩
        · rw [hm] at h
          dsimp only at h ⊢
          rcases hr : readDir w3 s with ⟨e | entries, w4⟩
          · rw [hr] at h
            exact h
          · rw [hr] at h
            dsimp only at h ⊢
            exact copyDirLoop_mono ih s d entries w4 x h
        · rw [hm] at h
          exact h

theorem copyDir_mono_le {n k : Nat} (hk : n ≤ k) {w : World} {s d : Path}
    {x : Option Err × World} (h : copyDir n w s d = some x) : copyDir k w s d = some x := by
  induction k with
  | zero =>
    have : n = 0 := by omega
    subst this
    exact h
  | succ k ih =>
    by_cases hn : n = k + 1
    · subst hn
      exact h
    · exact copyDir_mono k w s d x (ih (by omega))

/-- The loop returns when each recursive call on an entry of the source does. -/
theorem copyDirLoop_returns {recur : World → Path → Path → Option (Option Err × World)}
    (s d : Path) (h1 : ¬ s <+: d) (h2 : ¬ d <+: s) (w0 : World)
    (hframe : ∀ w s d r w1, recur w s d = some (r, w1) →
      (w.lookup d ≠ none ∨ ∃ d0 x m, d = d0 ++ [x] ∧ w.lookup d0 = some (.dir m)) →
      ∀ q, ¬ d <+: q → w1.lookup q = w.lookup q)
    (hret : ∀ wi x, (∀ q, s <+: q → wi.lookup q = w0.lookup q) →
      w0.lookup (s ++ [x]) ≠ none → ∃ r w1, recur wi (s ++ [x]) (d ++ [x]) = some (r, w1)) :
    ∀ (entries : List DirEntry) (wi : World),
      (∀ e ∈ entries, w0.lookup (s ++ [e.name]) ≠ none) →
      (∃ m, wi.lookup d = some (.dir m)) →
      (∀ q, s <+: q → wi.lookup q = w0.lookup q) →
      ∃ r w1, copyDirLoop recur entries wi s d = some (r, w1) := by
  intro entries
  induction entries with
  | nil => intro wi _ _ _; exact ⟨none, wi, rfl⟩
  | cons e rest ih =>
    intro wi hex hdir hsrc
    have hstep : ∃ r w2, copyEntry recur wi s d e = some (r, w2) := by
      unfold copyEntry
      split
      · exact hret wi e.name hsrc (hex e (by simp))
      · exact ⟨_, _, rfl⟩
    obtain ⟨r, w2, hc⟩ := hstep
    rw [copyDirLoop_cons, hc]
    cases r with
    | some err => exact ⟨_, _, rfl⟩
    | none =>
      dsimp only
      have hone : copyDirLoop recur [e] wi s d = some (none, w2) := by
        rw [copyDirLoop_cons, hc]
        rfl
      have hfr := copyDirLoop_frame hframe s d [e] wi w2 none hone hdir
      obtain ⟨m, hm⟩ := hdir
      apply ih w2 (fun e1 he1 => hex e1 (List.mem_cons_of_mem _ he1))
      · refine ⟨m, ?_⟩
        rw [hfr d (fun e1 he1 => by
          simp only [List.mem_singleton] at he1
          subst he1
          exact not_prefix_longer d e1.name []), hm]
      · intro q hq
        obtain ⟨b, rfl⟩ := hq
        rw [hfr (s ++ b) (fun e1 _ => disjoint_append h1 h2 [e1.name] b)]
        exact hsrc _ (List.prefix_append s b)

/-- One call of `copyDir` returns when its recursive calls do. -/
theorem copyDir_returns_step (k : Nat) (w : World) (s d : Path)
    (h1 : ¬ s <+: d) (h2 : ¬ d <+: s)
    (hret : ∀ wi x, (∀ q, s <+: q → wi.lookup q = w.lookup q) →
      w.lookup (s ++ [x]) ≠ none → ∃ r w1, copyDir k wi (s ++ [x]) (d ++ [x]) = some (r, w1)) :
    ∃ r w1, copyDir (k + 1) w s d = some (r, w1) := by
  rw [copyDir_succ]
  rcases hs : stat w s with ⟨e | si, w2⟩
  · exact ⟨_, _, rfl⟩
  · obtain ⟨hw2, _⟩ := stat_ok_eq hs
    dsimp only
    split
    · exact ⟨_, _, rfl⟩
    · rcases hm : mkdirAll w2 d si.mode with ⟨_ | e, w3⟩
      · dsimp only
        obtain ⟨⟨md, hdir⟩, hmk⟩ := mkdirAll_ok hm
        have hsrc3 : ∀ q, s <+: q → w3.lookup q = w.lookup q := by
          intro q hq
          rcases hmk q with h3 | ⟨h3, _⟩
          · rw [h3, hw2, log_lookup]
          · exact absurd (hq.trans h3) h1
        rcases hr : readDir w3 s with ⟨e | entries, w4⟩
        · exact ⟨_, _, rfl⟩
        · dsimp only
          obtain ⟨hw4, hent⟩ := readDir_ok hr
          have hsrc4 : ∀ q, s <+: q → w4.lookup q = w.lookup q := by
            intro q hq
            rw [hw4, log_lookup]
            exact hsrc3 q hq
          apply copyDirLoop_returns s d h1 h2 w4 (copyDir_frame k)
          · intro wi x hwi hx
            apply hret wi x
            · intro q hq
              rw [hwi q hq, hsrc4 q hq]
            · rw [← hsrc4 _ (List.prefix_append s [x])]
              exact hx
          · intro e he
            rw [hent, List.mem_map] at he
            obtain ⟨x, hx, rfl⟩ := he
            rw [hw4, log_lookup]
            exact (mem_childNames w3 s x).mp hx
          · exact ⟨md, by rw [hw4, log_lookup, hdir]⟩
          · intro q _
            rfl
      · exact ⟨_, _, rfl⟩

/-- When the destination is not in the source nor the source in the
destination, `copyDir` returns for every bound above the depth of the source. -/
theorem copyDir_returns : ∀ (k : Nat) (w : World) (s d : Path),
    ¬ s <+: d → ¬ d <+: s →
    (∀ q, s <+: q → w.lookup q ≠ none → q.length ≤ s.length + k) →
    ∃ r w1, copyDir (k + 1) w s d = some (r, w1) := by
  intro k
  induction k with
  | zero =>
    intro w s d h1 h2 hb
    apply copyDir_returns_step 0 w s d h1 h2
    intro wi x _ hx
    have := hb (s ++ [x]) (List.prefix_append s [x]) hx
    simp at this
  | succ k ih =>
    intro w s d h1 h2 hb
    apply copyDir_returns_step (k + 1) w s d h1 h2
    intro wi x hwi _
    apply ih wi (s ++ [x]) (d ++ [x]) (disjoint_append h2 h1 [x] [x])
      (disjoint_append h1 h2 [x] [x])
    intro q hq hne
    have hsq : s <+: q := (List.prefix_append s [x]).trans hq
    rw [hwi q hsq] at hne
    have := hb q hsq hne
    simp only [List.length_append, List.length_singleton]
    omega

theorem length_le_maxKeyLen (p : Path) (disk : List (Path × Node))
    (h : lookupDisk p disk ≠ none) : p.length ≤ maxKeyLen disk := by
  induction disk with
  | nil => simp [lookupDisk] at h
  | cons kv rest ih =>
    unfold lookupDisk at h
    unfold maxKeyLen
    by_cases hk : kv.1 = p
    · rw [hk]
      exact Nat.le_max_left _ _
    · rw [if_neg hk] at h
      exact (ih h).trans (Nat.le_max_right _ _)

/-! ### The contract of `copyDir` -/

theorem wellFormed_of_check (w : World) (h : wellFormedCheck w = true) : WellFormed w := by
  intro p x hne
  unfold World.lookup at hne
  rw [lookupDisk_ne_none] at hne
  obtain ⟨n, hn⟩ := hne
  unfold wellFormedCheck at h
  rw [List.all_eq_true] at h
  have h1 := h _ hn
  have h2 : (p ++ [x]).dropLast = p := List.dropLast_concat
  cases hp : p ++ [x] with
  | nil => simp at hp
  | cons a rest =>
    rw [hp] at h1 h2
    dsimp only at h1
    rw [h2] at h1
    cases hl : w.lookup p with
    | none => simp [hl] at h1
    | some nd =>
      cases nd with
      | file m data => simp [hl] at h1
      | dir m => exact ⟨m, rfl⟩

theorem copyDir_source_dir {n : Nat} {w w1 : World} {s d : Path}
    (h : copyDir n w s d = some (none, w1)) : ∃ ms, w.lookup s = some (.dir ms) := by
  cases n with
  | zero => simp [copyDir] at h
  | succ n =>
    unfold copyDir at h
    rcases hs : stat w s with ⟨e | si, w2⟩
    · rw [hs] at h
      simp at h
    · rw [hs] at h
      obtain ⟨_, hsi⟩ := stat_ok_eq hs
      cases si with
      | file m data => simp [Node.isDir] at h
      | dir ms => exact ⟨ms, hsi⟩

theorem applyUmask_of_disjoint (umask m : Nat) (h : m &&& umask = 0) :
    applyUmask umask m = m := by
  unfold applyUmask
  rw [h]
  simp

theorem copiedNode_eq_none {umask : Nat} {o : Option Node} :
    copiedNode umask o = none ↔ o = none := by
  cases o with
  | none => simp [copiedNode]
  | some n => cases n <;> simp [copiedNode]

/-- What a `copyDir` that ends well leaves at a destination that was not
there: the names of the source at every depth, every file with the bytes and
the mode of its source, and every directory whose mode shares no bit with the
umask with the mode of its source. -/
theorem copyDir_fresh (n : Nat) (w : World) (s d : Path) (w1 : World)
    (hwf : WellFormed w) (hd : w.lookup d = none)
    (h : copyDir n w s d = some (none, w1)) :
    (∀ r, w1.lookup (d ++ r) = none ↔ w.lookup (s ++ r) = none) ∧
    (∀ r m data, w.lookup (s ++ r) = some (.file m data) →
      w1.lookup (d ++ r) = some (.file m data)) ∧
    (∀ r m, w.lookup (s ++ r) = some (.dir m) → m &&& w.umask = 0 →
      w1.lookup (d ++ r) = some (.dir m)) := by
  have key : ∀ r, w1.lookup (d ++ r) = copiedNode w.umask (w.lookup (s ++ r)) := by
    obtain ⟨ms, hms⟩ := copyDir_source_dir h
    have h1 : ¬ s <+: d := by
      rintro ⟨r, hr⟩
      subst hr
      by_cases hr0 : r = []
      · subst hr0
        rw [List.append_nil, hms] at hd
        simp at hd
      · exact copyDir_nested n w s r w1 hwf hr0 h
    have h2 : ¬ d <+: s := by
      rintro ⟨r, hr⟩
      subst hr
      by_cases hr0 : r = []
      · subst hr0
        rw [List.append_nil, hd] at hms
        simp at hms
      · obtain ⟨m, hm⟩ := wf_ancestor_dir hwf hr0 (by rw [hms]; simp)
        rw [hd] at hm
        simp at hm
    have hfresh : ∀ r, r ≠ [] → w.lookup (d ++ r) = none :=
      wf_nothing_below hwf (fun m hm => by rw [hd] at hm; simp at hm)
    cases n with
    | zero => simp [copyDir] at h
    | succ n =>
      obtain ⟨ms1, hs1, hd1, hc1, _⟩ :=
        copyDir_step n (copyDir_recurOK n) w s d w1 h hwf h1 h2 hfresh
      intro r
      by_cases hr0 : r = []
      · subst hr0
        simp only [List.append_nil]
        rw [hd1, hd, hs1]
        rfl
      · exact hc1 r hr0
  refine ⟨?_, ?_, ?_⟩
  · intro r
    rw [key r]
    exact copiedNode_eq_none
  · intro r m data hr
    rw [key r, hr]
    rfl
  · intro r m hr hm
    rw [key r, hr]
    simp only [copiedNode]
    rw [applyUmask_of_disjoint _ _ hm]

/-- C1 at its failing input: under a umask of 022 the copy of `t` (mode
0777, holding a file of mode 0664 and a subdirectory of mode 0775) to the new
`d` ends well; the file arrives with its mode 0664, which `copyFile` sets with
`Chmod`, but `d` is left with mode 0755 and `d/sub` with mode 0755, not the
0777 and 0775 of the source. -/
theorem copyDir_fresh_dir_mode_refuted :
    WellFormed sampleFresh ∧ sampleFresh.lookup ["d"] = none ∧
    sampleFresh.lookup ["t"] = some (.dir 0o777) ∧
    sampleFresh.lookup ["t", "sub"] = some (.dir 0o775) ∧
    sampleFresh.lookup ["t", "a.txt"] = some (.file 0o664 [72, 105]) ∧
    (copyDir 3 sampleFresh ["t"] ["d"]).map
        (fun r => (r.1, r.2.lookup ["d"], r.2.lookup ["d", "sub"], r.2.lookup ["d", "a.txt"]))
      = some (none, some (.dir 0o755), some (.dir 0o755), some (.file 0o664 [72, 105])) :=
  ⟨wellFormed_of_check _ (by decide), by decide, by decide, by decide, by decide, by decide⟩

/-- A copy of an empty directory onto itself changes no node. -/
theorem copyDir_same_empty {n : Nat} {w w1 : World} {d : Path}
    (hempty : ∀ x, w.lookup (d ++ [x]) = none)
    (h : copyDir n w d d = some (none, w1)) : w1.lookup d = w.lookup d := by
  cases n with
  | zero => simp [copyDir] at h
  | succ n =>
    unfold copyDir at h
    rcases hs : stat w d with ⟨e | si, w2⟩
    · rw [hs] at h
      simp at h
    · rw [hs] at h
      obtain ⟨hw2, hsi⟩ := stat_ok_eq hs
      dsimp only at h
      cases si with
      | file m data => simp [Node.isDir] at h
      | dir ms =>
        simp only [Node.isDir, Bool.not_true, Bool.false_eq_true, if_false, Node.mode] at h
        rcases hm : mkdirAll w2 d ms with ⟨_ | e, w3⟩
        · rw [hm] at h
          dsimp only at h
          obtain ⟨_, hmk⟩ := mkdirAll_ok hm
          have hl3 : ∀ q, w3.lookup q = w.lookup q := by
            intro q
            rcases hmk q with h3 | ⟨h3, _, _, h6⟩
            · rw [h3, hw2, log_lookup]
            · have := h6 d h3 (List.prefix_refl d)
              rw [hw2, log_lookup, hsi] at this
              simp at this
          rcases hr : readDir w3 d with ⟨e | entries, w4⟩
          · rw [hr] at h
            simp at h
          · rw [hr] at h
            dsimp only at h
            obtain ⟨hw4, hent⟩ := readDir_ok hr
            have hnil : childNames w3 d = [] := by
              rw [List.eq_nil_iff_forall_not_mem]
              intro x hx
              rw [mem_childNames, hl3] at hx
              exact hx (hempty x)
            rw [hent, hnil] at h
            simp only [List.map_nil, copyDirLoop, Option.some.injEq, Prod.mk.injEq,
              true_and] at h
            rw [← h, hw4, log_lookup, hl3]
        · rw [hm] at h
          simp at h

/-- C2 amended: for a destination that is an empty directory of a
well-formed disk, `copyDir` returns for every bound above the depth of the disk
when the destination is neither the source nor inside it; and a `copyDir` that
ends well leaves the destination with the mode it had, not that of the source,
gives every directory beneath it whose source mode shares no bit with the umask
the mode of its source, and ends the same way for every larger bound. -/
theorem copyDir_into_empty_dir (w : World) (s d : Path)
    (hwf : WellFormed w) (md : Nat) (hd : w.lookup d = some (.dir md))
    (hempty : ∀ x, w.lookup (d ++ [x]) = none) :
    (¬ s <+: d → ∃ k, ∀ n, k ≤ n → ∃ r w1, copyDir n w s d = some (r, w1)) ∧
    (∀ n w1, copyDir n w s d = some (none, w1) →
      w1.lookup d = some (.dir md) ∧
      (∀ r m, r ≠ [] → w.lookup (s ++ r) = some (.dir m) → m &&& w.umask = 0 →
        w1.lookup (d ++ r) = some (.dir m)) ∧
      (∀ k, n ≤ k → copyDir k w s d = some (none, w1))) := by
  have hfresh : ∀ r, r ≠ [] → w.lookup (d ++ r) = none := by
    intro r hr
    cases r with
    | nil => exact absurd rfl hr
    | cons x r =>
      by_cases hr0 : r = []
      · subst hr0
        exact hempty x
      · have := wf_nothing_below hwf (p := d ++ [x])
          (fun m hm => by rw [hempty x] at hm; simp at hm) r hr0
        simpa using this
  refine ⟨?_, ?_⟩
  · intro h1
    by_cases h2 : d <+: s
    · obtain ⟨r, hr⟩ := h2
      subst hr
      have hr0 : r ≠ [] := by
        intro h0
        subst h0
        exact h1 (by simp)
      refine ⟨1, ?_⟩
      intro n hn
      obtain ⟨m, rfl⟩ : ∃ m, n = m + 1 := ⟨n - 1, by omega⟩
      rw [copyDir_succ, stat_of_none (hfresh r hr0)]
      exact ⟨_, _, rfl⟩
    · refine ⟨maxKeyLen w.disk + 1, ?_⟩
      intro n hn
      obtain ⟨r, w1, hret⟩ := copyDir_returns (maxKeyLen w.disk) w s d h1 h2
        (fun q _ hq => (length_le_maxKeyLen q w.disk hq).trans (Nat.le_add_left _ _))
      exact ⟨r, w1, copyDir_mono_le hn hret⟩
  · intro n w1 h
    refine ⟨?_, ?_, fun k hk => copyDir_mono_le hk h⟩
    · obtain ⟨ms, hms⟩ := copyDir_source_dir h
      by_cases hsd : s = d
      · subst hsd
        rw [copyDir_same_empty hempty h, hd]
      · have h1 : ¬ s <+: d := by
          rintro ⟨r, hr⟩
          subst hr
          by_cases hr0 : r = []
          · subst hr0
            exact hsd (by simp)
          · exact copyDir_nested n w s r w1 hwf hr0 h
        have h2 : ¬ d <+: s := by
          rintro ⟨r, hr⟩
          subst hr
          by_cases hr0 : r = []
          · subst hr0
            exact hsd (by simp)
          · rw [hfresh r hr0] at hms
            simp at hms
        cases n with
        | zero => simp [copyDir] at h
        | succ n =>
          obtain ⟨ms1, hs1, hd1, hc1, _⟩ :=
            copyDir_step n (copyDir_recurOK n) w s d w1 h hwf h1 h2 hfresh
          rw [hd1, hd]
    · intro r m hr hl hm
      obtain ⟨ms, hms⟩ := copyDir_source_dir h
      by_cases hsd : s = d
      · subst hsd
        rw [hfresh r hr] at hl
        simp at hl
      · have h1 : ¬ s <+: d := by
          rintro ⟨r, hr⟩
          subst hr
          by_cases hr0 : r = []
          · subst hr0
            exact hsd (by simp)
          · exact copyDir_nested n w s r w1 hwf hr0 h
        have h2 : ¬ d <+: s := by
          rintro ⟨r, hr⟩
          subst hr
          by_cases hr0 : r = []
          · subst hr0
            exact hsd (by simp)
          · rw [hfresh r hr0] at hms
            simp at hms
        cases n with
        | zero => simp [copyDir] at h
        | succ n =>
          obtain ⟨ms1, hs1, hd1, hc1, _⟩ :=
            copyDir_step n (copyDir_recurOK n) w s d w1 h hwf h1 h2 hfresh
          rw [hc1 r hr, hl]
          simp only [copiedNode]
          rw [applyUmask_of_disjoint _ _ hm]

/-- Witness of C2 amended: the copy of `t` to the empty `d` in
`sampleExisting` returns, ends well and leaves `d` with its mode 0755. -/
theorem copyDir_into_empty_dir_witness :
    WellFormed sampleExisting ∧ sampleExisting.lookup ["d"] = some (.dir 0o755) ∧
    copyDir 3 sampleExisting ["t"] ["d"] = some (none, sampleExistingDone) ∧
    sampleExistingDone.lookup ["d"] = some (.dir 0o755) ∧
    sampleExistingDone.lookup (["d"] ++ ["sub"]) = some (.dir 0o750) :=
  have h := (copyDir_into_empty_dir sampleExisting ["t"] ["d"]
    (wellFormed_of_check _ (by decide)) 0o755 (by decide)
    (fun x => by
      have h1 : sampleExisting.lookup (["d"] ++ [x]) = none := by
        simp [World.lookup, sampleExisting, lookupDisk]
      exact h1)).2 3 sampleExistingDone (by decide)
  ⟨wellFormed_of_check _ (by decide), by decide, by decide, h.1,
    h.2.1 ["sub"] 0o750 (by simp) (by decide) (by decide)⟩

/-- C2 as stated fails: with a umask of 0, the copy of `t` (mode 0700) to the
empty directory `d` that was made with mode 0755 ends well and leaves `d`
with mode 0755; and `scaffoldProject` on the template `py` of mode 0700 leaves
the project directory with mode 0755. -/
theorem copyDir_existing_dir_mode_refuted :
    WellFormed sampleExisting ∧ sampleExisting.lookup ["t"] = some (.dir 0o700) ∧
    sampleExisting.lookup ["d"] = some (.dir 0o755) ∧
    childNames sampleExisting ["d"] = [] ∧
    (copyDir 3 sampleExisting ["t"] ["d"]).map (fun r => (r.1, r.2.lookup ["d"]))
      = some (none, some (.dir 0o755)) ∧
    sampleTemplates.lookup ["home", ".janus", "templates", "py"] = some (.dir 0o700) ∧
    (scaffoldProject 3 sampleRun (fun c => c) sampleTemplates "py" "" "proj\n").map
        (fun w => (w.lookup ["work", "proj"], w.lookup ["work", "proj", "requirements.txt"]))
      = some (some (.dir 0o755), some (.file 0o644 [102])) :=
  ⟨wellFormed_of_check _ (by decide), by decide, by decide, by decide, by decide, by decide,
    by decide⟩

/-! ### `copyDir` stops at the first error -/

/-- Witness of C5: with `package.json` and `requirements.txt` both in the
project directory, `npm install` is the one command run. -/
theorem installDeps_priority_witness :
    sampleBothMarkers.lookup (["p"] ++ ["package.json"]) ≠ none ∧
    sampleBothMarkers.lookup (["p"] ++ ["requirements.txt"]) ≠ none ∧
    (commandsRun (newEvents sampleBothMarkers
        (installDeps sampleRun sampleBothMarkers ["p"]))).map Prod.fst
      = [(["p"], "npm", ["install"])] :=
  ⟨by decide, by decide,
    (installDeps_priority sampleRun sampleBothMarkers ["p"]).1 (by decide)⟩

/-- Witness of C6: `pip` fails, `pip3` is run once and succeeds, no warning
is printed. -/
theorem installDeps_pip_fallback_witness :
    samplePipOnly.lookup (["p"] ++ ["package.json"]) = none ∧
    samplePipOnly.lookup (["p"] ++ ["requirements.txt"]) ≠ none ∧
    commandsRun (newEvents samplePipOnly (installDeps sampleRun samplePipOnly ["p"]))
      = [((["p"], "pip", ["install", "-r", "requirements.txt"]), some (.exitStatus 127)),
         ((["p"], "pip3", ["install", "-r", "requirements.txt"]), none)] ∧
    printed (newEvents samplePipOnly (installDeps sampleRun samplePipOnly ["p"]))
      = ["📦 Found requirements.txt, installing pip dependencies...\n",
         "✅ pip dependencies installed successfully\n"] :=
  ⟨by decide, by decide,
    (installDeps_pip_fallback sampleRun samplePipOnly ["p"] (by decide) (by decide)).1,
    (installDeps_pip_fallback sampleRun samplePipOnly ["p"] (by decide) (by decide)).2⟩

/-- Witness of C7: with git on the path and no `.git`, the first command is
`git init`. -/
theorem initGit_steps_witness :
    samplePipOnly.gitOnPath = true ∧ samplePipOnly.lookup (["p"] ++ [".git"]) = none ∧
    (commandsRun (newEvents samplePipOnly (initGit sampleRun samplePipOnly ["p"]))).head?
      = some ((["p"], "git", ["init"]), none) :=
  ⟨rfl, by decide,
    (initGit_steps sampleRun samplePipOnly ["p"]).2.2.1 rfl (by decide)⟩

/-- Witness of C9: the name `Taken` is sanitized to `taken`, which exists
in the working directory. -/
theorem scaffoldProject_abort_witness :
    sampleTemplates.lookup
      (sampleTemplates.cwd ++ [projectNameOf (fun c => c) "py" "" " Taken \n"]) ≠ none ∧
    ∃ w1, scaffoldProject 3 sampleRun (fun c => c) sampleTemplates "py" "" " Taken \n"
        = some w1 ∧
      w1.disk = sampleTemplates.disk ∧ commandsRun (newEvents sampleTemplates w1) = [] ∧
      ∀ ev ∈ newEvents sampleTemplates w1, ev.readOnly = true :=
  ⟨by decide,
    scaffoldProject_abort 3 sampleRun (fun c => c) sampleTemplates "py" "" " Taken \n"
      (by decide)⟩

end Janus
